import Mathlib

/-!
# Verification of the 3MF resource-graph resolver and serializer

A shallow embedding of the core logic of the Blender 3MF add-on
(`io_mesh_3mf`): the transform parser, the build resolver, the metadata
store, the content-type resolver, the package reader's grouping, the
export-side material selection, and the number formatter.  Numbers that the
source manipulates as Python floats are modelled as exact rationals (`ℚ`);
XML elements are modelled as structures holding exactly the attributes and
children that the source reads.
-/

namespace ThreeMF

/-! ## Matrices (`mathutils.Matrix`, 4×4, rational entries)

`mathutils` matrices are indexed `m[row][col]` and act on column vectors;
`A @ B` is ordinary matrix multiplication.  We reuse Mathlib's `Matrix`.
-/

abbrev Mat4 := Matrix (Fin 4) (Fin 4) ℚ

/-- `mathutils.Matrix.Scale(factor, 4)`: uniform scaling, `diag(s, s, s, 1)`. -/
def scaleMatrix (s : ℚ) : Mat4 :=
  Matrix.of fun i j => if i = j then (if (i : ℕ) = 3 then 1 else s) else 0

/-- Write a single cell of a matrix (`result[row][col] = v`), with the
indices as the integer loop counters of `parse_transformation`. -/
def setCell (m : Mat4) (row col : ℤ) (v : ℚ) : Mat4 :=
  Matrix.of fun i j => if ((i : ℕ) : ℤ) = row ∧ ((j : ℕ) : ℤ) = col then v else m i j

/-! ## Python number parsing

`float()` and `int()` of CPython, restricted to the ordinary numeric
grammar (optional surrounding whitespace, optional sign, digits with an
optional fraction and exponent).  The special inputs `inf`/`nan` and digit
group underscores are not modelled; the values are exact rationals.
-/

/-- The numeric value of a string of decimal digits. -/
def natOfDigits (l : List Char) : ℕ :=
  l.foldl (fun n c => 10 * n + (c.toNat - 48)) 0

/-- Strip an optional leading sign, returning whether it was a minus. -/
def parseSign : List Char → Bool × List Char
  | '+' :: rest => (false, rest)
  | '-' :: rest => (true, rest)
  | l => (false, l)

/-- Strip the whitespace that `float()`/`int()` tolerate around a number. -/
def stripSpaces (l : List Char) : List Char :=
  ((l.dropWhile Char.isWhitespace).reverse.dropWhile Char.isWhitespace).reverse

/-- The exact rational value of a parsed decimal: sign, integer digits,
fraction digits and a decimal exponent.  Built with `mkRat` over integer
arithmetic so that it evaluates inside the kernel. -/
def decimalValue (neg : Bool) (ip fp : List Char) (ex : ℤ) : ℚ :=
  let m : ℤ := (natOfDigits ip : ℤ) * 10 ^ fp.length + (natOfDigits fp : ℤ)
  let m := if neg then -m else m
  if 0 ≤ ex then mkRat (m * 10 ^ ex.toNat) (10 ^ fp.length)
  else mkRat m (10 ^ (fp.length + (-ex).toNat))

/-- Model of Python `float(s)`: `none` on `ValueError`. -/
def pyFloat? (s : String) : Option ℚ :=
  let cs := stripSpaces s.data
  let (neg, cs) := parseSign cs
  let ip := cs.takeWhile Char.isDigit
  let cs := cs.drop ip.length
  let (fp, cs) :=
    match cs with
    | '.' :: rest => (rest.takeWhile Char.isDigit, rest.drop (rest.takeWhile Char.isDigit).length)
    | _ => ([], cs)
  if ip.isEmpty ∧ fp.isEmpty then none
  else
    let exp? : Option (ℤ × List Char) :=
      match cs with
      | [] => some (0, [])
      | c :: rest =>
        if c = 'e' ∨ c = 'E' then
          let (eneg, r2) := parseSign rest
          let ed := r2.takeWhile Char.isDigit
          if ed.isEmpty then none
          else some ((if eneg then -(natOfDigits ed : ℤ) else (natOfDigits ed : ℤ)),
                     r2.drop ed.length)
        else none
    match exp? with
    | none => none
    | some (ex, rest) =>
      if ¬rest.isEmpty then none
      else some (decimalValue neg ip fp ex)

/-- Model of Python `int(s)` (base 10): `none` on `ValueError`. -/
def pyInt? (s : String) : Option ℤ :=
  let cs := stripSpaces s.data
  let (neg, cs) := parseSign cs
  if cs ≠ [] ∧ cs.all Char.isDigit then
    some (if neg then -(natOfDigits cs : ℤ) else (natOfDigits cs : ℤ))
  else none

/-! ## `Import3MF.parse_transformation` -/

/-- Model of Python `s.split(" ")`: split on every single space, keeping
empty tokens. -/
def splitSpacesGo : List Char → List Char → List String
  | [], acc => [String.mk acc.reverse]
  | ' ' :: rest, acc => String.mk acc.reverse :: splitSpacesGo rest []
  | c :: rest, acc => splitSpacesGo rest (c :: acc)

def splitSpaces (s : String) : List String :=
  splitSpacesGo s.data []

/-- The loop of `parse_transformation`: `row` starts at `-1`, `col` at `0`;
each token first advances the counters (rolling `row` over into `col` after
three tokens, breaking once `col` exceeds 3), then an unparsable token is
skipped (leaving that cell at its prior, identity, value) while a parsable
one is written into `result[row][col]`. -/
def parseTransformationGo : List String → ℤ → ℤ → Mat4 → Mat4
  | [], _, _, result => result
  | component :: rest, row, col, result =>
    let rowInc := row + 1
    let row := if rowInc > 2 then (0 : ℤ) else rowInc
    let col := if rowInc > 2 then col + 1 else col
    if col > 3 then result
    else
      match pyFloat? component with
      | none => parseTransformationGo rest row col result
      | some v => parseTransformationGo rest row col (setCell result row col v)

/-- `Import3MF.parse_transformation`: split the attribute on single spaces
and fill cells of an identity matrix; the empty string is an early-out
returning the identity. -/
def parse_transformation (transformation_str : String) : Mat4 :=
  if transformation_str = "" then 1
  else parseTransformationGo (splitSpaces transformation_str) (-1) 0 1

example : parse_transformation "" = 1 := by decide
example : parse_transformation "2 0 0 0 2 0 0 0 2 10 20 30" =
    Matrix.of ![![2, 0, 0, 10], ![0, 2, 0, 20], ![0, 0, 2, 30], ![0, 0, 0, 1]] := by
  decide

/-! ## The Metadata store (`metadata.py`)

A Python `dict` mapping entry names to either a `MetadataEntry` or `None`
(the erasure marker left by a conflict).  The `dict` is modelled as an
association list with unique keys; an update keeps the key's position,
a fresh insert appends, exactly as Python `dict` ordering behaves.
-/

/-- A Python `dict` read `d.get(key)`: the value at the key's unique
binding, here the first binding of the key in the association list. -/
def alistFind? {κ α : Type} [DecidableEq κ] : List (κ × α) → κ → Option α
  | [], _ => none
  | p :: m, key => if p.1 = key then some p.2 else alistFind? m key

/-- `MetadataEntry` named tuple.  `value` is the XML node text, which may be
Python `None`. -/
structure MetadataEntry where
  name : String
  preserve : Bool
  datatype : String
  value : Option String
deriving DecidableEq, Repr

/-- The `Metadata.metadata` dict: entry name ↦ entry, or `none` for the
erasure marker. -/
abbrev Metadata := List (String × Option MetadataEntry)

namespace Metadata

/-- `key in self.metadata` / `self.metadata[key]` read access: the value at
the first binding of `key`, if any. -/
def find? (m : Metadata) (key : String) : Option (Option MetadataEntry) :=
  alistFind? m key

/-- `self.metadata[key] = v` on a dict already containing `key`: replace in
place, keeping the position. -/
def replace (m : Metadata) (key : String) (v : Option MetadataEntry) : Metadata :=
  m.map fun p => if p.1 = key then (key, v) else p

/-- `Metadata.__setitem__`. -/
def setItem (m : Metadata) (key : String) (value : MetadataEntry) : Metadata :=
  match find? m key with
  | none => m ++ [(key, some value)]
  | some none => m
  | some (some competing) =>
    if value.value ≠ competing.value ∨ value.datatype ≠ competing.datatype then
      replace m key none
    else if ¬competing.preserve ∧ value.preserve then
      replace m key (some ⟨key, true, competing.datatype, competing.value⟩)
    else m

/-- `Metadata.__getitem__`: `none` models the `KeyError` raised both for an
absent key and for the erasure marker. -/
def getItem (m : Metadata) (key : String) : Option MetadataEntry :=
  match find? m key with
  | some (some entry) => some entry
  | _ => none

/-- `Metadata.__contains__`. -/
def contains (m : Metadata) (key : String) : Bool :=
  match find? m key with
  | some (some _) => true
  | _ => false

/-- `Metadata.__delitem__`: removes the key if present (marker included),
a no-op otherwise — it never raises. -/
def delItem (m : Metadata) (key : String) : Metadata :=
  m.filter fun p => p.1 ≠ key

/-- `Metadata.values`: all entries that are not the erasure marker. -/
def values (m : Metadata) : List MetadataEntry :=
  m.filterMap Prod.snd

/-- `Metadata.__len__`. -/
def length (m : Metadata) : ℕ :=
  (values m).length

end Metadata

/-! ## The resource graph (`Import3MF.read_*`)

XML elements are modelled as structures holding exactly the attributes and
child elements the importer reads; a missing attribute is `none`.
Dictionaries (`resource_materials`, `resource_objects`) are association
lists with unique keys, updated in place or appended, like Python dicts.
-/

/-- A `<metadata>` element (attributes `name`, `preserve`, `type`; text). -/
structure MetadataNode where
  name : Option String
  preserve : Option String
  type : Option String
  text : Option String
deriving DecidableEq, Repr

/-- A `<vertex>` element. -/
structure VertexNode where
  x : Option String
  y : Option String
  z : Option String
deriving DecidableEq, Repr

/-- A `<triangle>` element. -/
structure TriangleNode where
  v1 : Option String
  v2 : Option String
  v3 : Option String
  pid : Option String
  p1 : Option String
deriving DecidableEq, Repr

/-- A `<component>` element. -/
structure ComponentNode where
  objectid : Option String
  transform : Option String
deriving DecidableEq, Repr

/-- An `<object>` element with its mesh, components and metadata children. -/
structure ObjectNode where
  id : Option String
  pid : Option String
  pindex : Option String
  partnumber : Option String
  type : Option String
  vertices : List VertexNode
  triangles : List TriangleNode
  components : List ComponentNode
  metadatagroups : List (List MetadataNode)
deriving DecidableEq, Repr

/-- A `<build><item>` element. -/
structure BuildItemNode where
  objectid : Option String
  transform : Option String
  partnumber : Option String
  metadatagroups : List (List MetadataNode)
deriving DecidableEq, Repr

/-- `ResourceMaterial` named tuple (color already parsed to RGBA). -/
structure ResourceMaterial where
  name : String
  color : Option (ℚ × ℚ × ℚ × ℚ)
deriving DecidableEq, Repr

/-- `Component` named tuple: a resource ID plus a parsed transform. -/
structure Component where
  resource_object : String
  transformation : Mat4
deriving DecidableEq, Repr

/-- `ResourceObject` named tuple. -/
structure ResourceObject where
  vertices : List (ℚ × ℚ × ℚ)
  triangles : List (ℤ × ℤ × ℤ)
  materials : List (Option ResourceMaterial)
  components : List Component
  metadata : Metadata
deriving DecidableEq, Repr

/-- `self.resource_materials`: material group ID ↦ (index ↦ material). -/
abbrev MaterialStore := List (String × List (ℤ × ResourceMaterial))

/-- `self.resource_materials[pid][index]`, `none` on either `KeyError`.
`pid` is an `Option` because `attrib.get` may produce Python `None`, which
is simply a key a dict never contains. -/
def materialLookup (mats : MaterialStore) (pid : Option String) (index : ℤ) :
    Option ResourceMaterial :=
  match pid with
  | none => none
  | some p =>
    match alistFind? mats p with
    | none => none
    | some group => alistFind? group index

/-- `Import3MF.read_vertices`: a coordinate that is missing or fails float
parsing falls back to 0 so the index space is not shifted. -/
def read_vertices (nodes : List VertexNode) : List (ℚ × ℚ × ℚ) :=
  nodes.map fun node =>
    (((node.x.bind pyFloat?).getD 0 : ℚ),
     ((node.y.bind pyFloat?).getD 0 : ℚ),
     ((node.z.bind pyFloat?).getD 0 : ℚ))

/-- One iteration of the `read_triangles` loop: `none` when the triangle is
dropped (a vertex reference missing, unparsable, or negative), otherwise
the vertex triple and the material chosen through `pid`/`p1` with fallback
to the object default. -/
def readTriangle (mats : MaterialStore) (default_material : Option ResourceMaterial)
    (material_pid : Option String) (node : TriangleNode) :
    Option ((ℤ × ℤ × ℤ) × Option ResourceMaterial) :=
  match node.v1, node.v2, node.v3 with
  | some s1, some s2, some s3 =>
    match pyInt? s1, pyInt? s2, pyInt? s3 with
    | some v1, some v2, some v3 =>
      if v1 < 0 ∨ v2 < 0 ∨ v3 < 0 then none
      else
        let pid := node.pid.or material_pid
        let material :=
          match node.p1 with
          | none => default_material
          | some p1 =>
            match pyInt? p1 with
            | none => default_material
            | some index =>
              match materialLookup mats pid index with
              | none => default_material
              | some m => some m
        some ((v1, v2, v3), material)
    | _, _, _ => none
  | _, _, _ => none

/-- `Import3MF.read_triangles`: the two equal-length result lists. -/
def read_triangles (mats : MaterialStore) (nodes : List TriangleNode)
    (default_material : Option ResourceMaterial) (material_pid : Option String) :
    List (ℤ × ℤ × ℤ) × List (Option ResourceMaterial) :=
  let rows := nodes.filterMap (readTriangle mats default_material material_pid)
  (rows.map Prod.fst, rows.map Prod.snd)

/-- `Import3MF.read_components`: skip a `<component>` with no `objectid`;
parse its transform attribute (default `""`, hence identity). -/
def read_components (nodes : List ComponentNode) : List Component :=
  nodes.filterMap fun node =>
    match node.objectid with
    | none => none
    | some objectid =>
      some ⟨objectid, parse_transformation (node.transform.getD "")⟩

/-- `Import3MF.read_metadata` over one `<metadatagroup>`: entries without a
name are discarded, the rest are stored through `Metadata.__setitem__`. -/
def read_metadata (nodes : List MetadataNode) (metadata : Metadata) : Metadata :=
  nodes.foldl
    (fun md node =>
      match node.name with
      | none => md
      | some name =>
        let preserve_str := node.preserve.getD "0"
        let preserve := preserve_str ≠ "0" ∧ preserve_str.toLower ≠ "false"
        Metadata.setItem md name
          ⟨name, preserve, node.type.getD "", node.text⟩)
    metadata

/-- Python `dict` write `d[k] = v`: replace in place or append. -/
def dictSet {α : Type} (m : List (String × α)) (key : String) (v : α) :
    List (String × α) :=
  if (alistFind? m key).isSome then
    m.map fun p => if p.1 = key then (key, v) else p
  else m ++ [(key, v)]

/-- The body of the `read_objects` loop for one `<object>` element:
`none` when the element has no `id` attribute and is skipped. -/
def readObject (mats : MaterialStore) (node : ObjectNode) :
    Option (String × ResourceObject) :=
  match node.id with
  | none => none
  | some objectid =>
    let material : Option ResourceMaterial :=
      match node.pid, node.pindex with
      | some pid, some pindex =>
        match pyInt? pindex with
        | none => none
        | some index => materialLookup mats (some pid) index
      | _, _ => none
    let vertices := read_vertices node.vertices
    let tm := read_triangles mats node.triangles material node.pid
    let triangles := tm.1
    let materials := tm.2
    let components := read_components node.components
    let metadata := node.metadatagroups.foldl (fun md g => read_metadata g md) []
    let metadata :=
      match node.partnumber with
      | some pn =>
        Metadata.setItem metadata "3mf:partnumber"
          ⟨"3mf:partnumber", true, "xs:string", some pn⟩
      | none => metadata
    let metadata :=
      Metadata.setItem metadata "3mf:object_type"
        ⟨"3mf:object_type", true, "xs:string", some (node.type.getD "model")⟩
    some (objectid, ⟨vertices, triangles, materials, components, metadata⟩)

/-- `self.resource_objects` after `Import3MF.read_objects`. -/
def read_objects (mats : MaterialStore) (nodes : List ObjectNode) :
    List (String × ResourceObject) :=
  nodes.foldl
    (fun ros node =>
      match readObject mats node with
      | none => ros
      | some (objectid, ro) => dictSet ros objectid ro)
    []

/-! ## The build resolver (`Import3MF.build_items` / `build_object`)

`build_object` creates one Blender object per recursive instantiation (a
node holding the resource, the accumulated `matrix_world` and the item
metadata) and recurses into the resource's components, skipping a
component whose target ID is already on the ancestor-ID stack (appending
before the recursive call and popping after is the same as handing each
child the extended stack).  The Python recursion has no structural bound,
so the model takes explicit fuel; fuel sufficiency is proved separately.
-/

abbrev ResourceStore := List (String × ResourceObject)

/-- `self.resource_objects[id]`, `none` on `KeyError`. -/
def resourceLookup (ros : ResourceStore) (id : String) : Option ResourceObject :=
  alistFind? ros id

/-- The tree of Blender objects a single build item produces: each node is
one created object with its `matrix_world` and parent link. -/
inductive PlacedTree where
  | node (resource : ResourceObject) (transformation : Mat4) (metadata : Metadata)
      (children : List PlacedTree)

def PlacedTree.resource : PlacedTree → ResourceObject
  | node ro _ _ _ => ro

def PlacedTree.transformation : PlacedTree → Mat4
  | node _ t _ _ => t

def PlacedTree.children : PlacedTree → List PlacedTree
  | node _ _ _ c => c

/-- `Import3MF.build_object`. -/
def build_object (ros : ResourceStore) :
    ℕ → ResourceObject → Mat4 → Metadata → List String → PlacedTree
  | 0, ro, transformation, metadata, _ => .node ro transformation metadata []
  | fuel + 1, ro, transformation, metadata, objectid_stack_trace =>
    .node ro transformation metadata <|
      ro.components.filterMap fun component =>
        if component.resource_object ∈ objectid_stack_trace then none
        else
          match resourceLookup ros component.resource_object with
          | none => none
          | some child_object =>
            some (build_object ros fuel child_object
              (transformation * component.transformation) metadata
              (objectid_stack_trace ++ [component.resource_object]))

/-- The item-level metadata collected in the `build_items` loop. -/
def buildItemMetadata (item : BuildItemNode) : Metadata :=
  let metadata := item.metadatagroups.foldl (fun md g => read_metadata g md) []
  match item.partnumber with
  | some pn =>
    Metadata.setItem metadata "3mf:partnumber" ⟨"3mf:partnumber", true, "xs:string", some pn⟩
  | none => metadata

/-- The transform a build item starts from:
`Matrix.Scale(scale_unit, 4) @ parse_transformation(item.get("transform", ""))`. -/
def buildItemTransform (scale_unit : ℚ) (item : BuildItemNode) : Mat4 :=
  scaleMatrix scale_unit * parse_transformation (item.transform.getD "")

/-- `Import3MF.build_items`: items with no `objectid`, or whose `objectid`
resolves to no resource, are skipped. -/
def build_items (ros : ResourceStore) (items : List BuildItemNode) (scale_unit : ℚ)
    (fuel : ℕ) : List PlacedTree :=
  items.filterMap fun item =>
    match item.objectid with
    | none => none
    | some objectid =>
      match resourceLookup ros objectid with
      | none => none
      | some resource_object =>
        some (build_object ros fuel resource_object (buildItemTransform scale_unit item)
          (buildItemMetadata item) [objectid])

/-! ## Constants (`constants.py`) -/

def RELS_MIMETYPE : String := "application/vnd.openxmlformats-package.relationships+xml"
def MODEL_MIMETYPE : String := "application/vnd.ms-package.3dmanufacturing-3dmodel+xml"
def CONTENT_TYPES_LOCATION : String := "[Content_Types].xml"

/-- First binding of a string key in an association list (a Python dict read). -/
def lookupStr {α : Type} (m : List (String × α)) (key : String) : Option α :=
  alistFind? m key

/-! ## The content-type resolver
(`Import3MF.read_content_types` / `assign_content_types`)

The source compiles each rule to a regular expression: an Override becomes
`re.escape(PartName)` (an exact path match under `fullmatch`) and a Default
becomes `r".*\." + re.escape(Extension)` (`fullmatch`: any prefix without a
newline — `.` does not match `\n` — followed by a literal dot and the
extension).
-/

/-- An `<Override>` element of `[Content_Types].xml`. -/
structure OverrideNode where
  partName : Option String
  contentType : Option String
deriving DecidableEq, Repr

/-- A `<Default>` element of `[Content_Types].xml`. -/
structure DefaultNode where
  extension : Option String
  contentType : Option String
deriving DecidableEq, Repr

/-- The parsed `[Content_Types].xml` document. -/
structure ContentTypesDoc where
  overrides : List OverrideNode
  defaults : List DefaultNode
deriving DecidableEq, Repr

/-- The two shapes of compiled content-type regexes. -/
inductive CTPattern where
  | exact (path : String)
  | extSuffix (ext : String)
deriving DecidableEq, Repr

/-- `pattern.fullmatch(file_path)` of the two compiled regex shapes. -/
def CTPattern.matches : CTPattern → String → Bool
  | .exact p, path => path = p
  | .extSuffix e, path =>
    ('.' :: e.data).isSuffixOf path.data ∧
      '\n' ∉ path.data.take (path.data.length - (e.data.length + 1))

/-- The Override rules collected by `read_content_types`, skipping nodes
missing either attribute. -/
def overrideRules (d : ContentTypesDoc) : List (CTPattern × String) :=
  d.overrides.filterMap fun node =>
    match node.partName, node.contentType with
    | some p, some ct => some (.exact p, ct)
    | _, _ => none

/-- The Default rules collected by `read_content_types`, skipping nodes
missing either attribute. -/
def defaultRules (d : ContentTypesDoc) : List (CTPattern × String) :=
  d.defaults.filterMap fun node =>
    match node.extension, node.contentType with
    | some e, some ct => some (.extSuffix e, ct)
    | _, _ => none

/-- `Import3MF.read_content_types`: Overrides first, then Defaults, then the
two built-in fallback rules; a missing or malformed content-types file
(`none`) contributes no rules but still gets the fallbacks. -/
def read_content_types (doc : Option ContentTypesDoc) : List (CTPattern × String) :=
  (match doc with
   | none => []
   | some d => overrideRules d ++ defaultRules d) ++
  [(.extSuffix "rels", RELS_MIMETYPE), (.extSuffix "model", MODEL_MIMETYPE)]

/-- The inner `for pattern, content_type in content_types` loop of
`assign_content_types`: the MIME type of the first matching rule. -/
def firstMatch : List (CTPattern × String) → String → Option String
  | [], _ => none
  | pc :: rest, path => if pc.1.matches path then some pc.2 else firstMatch rest path

/-- The value assigned to one file: first matching rule, or `""`. -/
def assignValue (content_types : List (CTPattern × String)) (file_path : String) : String :=
  (firstMatch content_types file_path).getD ""

/-- `Import3MF.assign_content_types`: every archive file except the
content-types file itself gets the MIME type of the first matching rule,
or `""` when none matches. -/
def assign_content_types (filelist : List String)
    (content_types : List (CTPattern × String)) : List (String × String) :=
  filelist.foldl
    (fun result file_path =>
      if file_path = CONTENT_TYPES_LOCATION then result
      else dictSet result file_path (assignValue content_types file_path))
    []

/-! ## The package reader boundary (`Import3MF.read_archive`)

Opening the zip file is an effect; its outcome is modelled as an `Except`:
`ZipError` covers `zipfile.BadZipFile` (zero-byte or non-zip data) and
`EnvironmentError` (nonexistent or unreadable file), exactly the exceptions
the source catches.  A successfully opened archive is its file list plus
the parsed content-types document (`none` when missing or malformed).  The
streams grouped into the result are stood for by their archive paths.
-/

inductive ZipError where
  | badZipFile
  | environmentError
deriving DecidableEq, Repr

structure ZipArchive where
  filelist : List String
  contentTypesDoc : Option ContentTypesDoc
deriving DecidableEq, Repr

/-- `result[mime_type].append(path)`, creating the list first if needed. -/
def dictAppend (result : List (String × List String)) (mime path : String) :
    List (String × List String) :=
  if (alistFind? result mime).isSome then
    result.map fun p => if p.1 = mime then (p.1, p.2 ++ [path]) else p
  else result ++ [(mime, [path])]

/-- `Import3MF.read_archive`: an open failure is caught and yields the (at
that point still empty) result dict; otherwise the archive's files are
grouped by their assigned content type. -/
def read_archive (archive? : Except ZipError ZipArchive) : List (String × List String) :=
  match archive? with
  | .error _ => []
  | .ok archive =>
    let content_types := read_content_types archive.contentTypesDoc
    let mime_types := assign_content_types archive.filelist content_types
    mime_types.foldl (fun result pm => dictAppend result pm.2 pm.1) []

/-! ## Export-side material selection
(`Export3MF.write_object_resource` / `write_triangles`)

A Blender `MeshLoopTriangle` is its vertex indices plus a material index
into the object's material-slot list; a slot is stood for by its material
name.  `self.material_name_to_index` (built by `write_materials`, which
maps every slot name of every exported object) is modelled as a function.
-/

structure LoopTriangle where
  vertices : ℕ × ℕ × ℕ
  material_index : ℕ
deriving DecidableEq, Repr

/-- `collections.Counter(l).most_common(1)[0][0]`: the value with the
largest count; `Counter` iterates keys in first-encounter order and
`most_common` sorts stably by descending count, so ties go to the value
first encountered in `l`. -/
def counterMostCommonGo (full : List ℕ) : List ℕ → Option ℕ → Option ℕ
  | [], best => best
  | x :: rest, none => counterMostCommonGo full rest (some x)
  | x :: rest, some b =>
    counterMostCommonGo full rest (if full.count b < full.count x then some x else some b)

def counterMostCommon (l : List ℕ) : ℕ :=
  (counterMostCommonGo l l none).getD 0

/-- The material bookkeeping of `write_object_resource` around the mesh:
the first component is the `pindex` attribute written on the `<object>`
element (`none` when no material is written), the second is
`most_common_material_list_index` as handed to `write_triangles`. -/
def writeObjectMaterial (triangles : List LoopTriangle) (material_slots : List String)
    (material_name_to_index : String → ℕ) : Option ℕ × ℕ :=
  let material_indices := triangles.map LoopTriangle.material_index
  if material_indices ≠ [] ∧ material_slots ≠ [] then
    let most_common_material_object_index := counterMostCommon material_indices
    let most_common_material := material_slots.getD most_common_material_object_index ""
    let most_common_material_list_index := material_name_to_index most_common_material
    (some most_common_material_list_index, most_common_material_list_index)
  else (none, 0)

/-- The `p1` attribute `write_triangles` puts on one `<triangle>` element:
present exactly when the triangle's material index is in range for the
slot list and its material resolves to a different global index than the
object's default. -/
def triangleP1 (material_slots : List String) (material_name_to_index : String → ℕ)
    (object_material_list_index : ℕ) (triangle : LoopTriangle) : Option ℕ :=
  if triangle.material_index < material_slots.length then
    let material_index :=
      material_name_to_index (material_slots.getD triangle.material_index "")
    if material_index ≠ object_material_list_index then some material_index else none
  else none

/-! ## The number formatter (`Export3MF.format_number`)

`"{:.Nf}".format(x)` renders the exact value of the float correctly
rounded to `N` fractional digits (ties to even), in fixed-decimal
notation, with a leading `-` for negative inputs.  The float's exact value
is the rational `q`; the format model works on `q.num`/`q.den` with
integer arithmetic only.
-/

def digitChar (n : ℕ) : Char := Char.ofNat (48 + n)

/-- The decimal digits of a natural number, most significant first. -/
def natDigitsGo : ℕ → ℕ → List Char
  | 0, _ => []
  | fuel + 1, n => if n < 10 then [digitChar n] else natDigitsGo fuel (n / 10) ++ [digitChar (n % 10)]

def natDigits (n : ℕ) : List Char := natDigitsGo (n + 1) n

/-- `round(a / den)` with ties to even, for `den ≠ 0`. -/
def roundHalfEven (a : ℤ) (den : ℕ) : ℤ :=
  let q := Int.fdiv a den
  let r := a - q * den
  if den < 2 * r then q + 1
  else if 2 * r < den then q
  else if q % 2 = 0 then q else q + 1

/-- `"{:.decimals f}".format(number)` on the exact value `q`. -/
def fixedFormat (q : ℚ) (decimals : ℕ) : List Char :=
  let neg := q.num < 0
  let m := roundHalfEven (q.num.natAbs * 10 ^ decimals) q.den
  let ds := natDigits m.toNat
  let ds := List.replicate (decimals + 1 - ds.length) '0' ++ ds
  let intPart := ds.take (ds.length - decimals)
  let fracPart := ds.drop (ds.length - decimals)
  (if neg then ['-'] else []) ++ intPart ++ if decimals = 0 then [] else '.' :: fracPart

/-- `Export3MF.format_number`: fixed format, strip trailing zeros, strip a
trailing decimal point, and render an all-zero result as `"0"`. -/
def format_number (q : ℚ) (decimals : ℕ) : String :=
  let formatted := ((fixedFormat q decimals).rdropWhile (· = '0')).rdropWhile (· = '.')
  if formatted = [] then "0" else String.mk formatted

/-! ## Statement-support definitions -/

/-- A placeholder used to read positions out of lists of placed trees. -/
def dummyTree : PlacedTree := .node ⟨[], [], [], [], []⟩ 1 [] []

/-- Modelled from the spec: the twelve transform numbers in row-major
order fill the four rows of three cells each (the 3×3 linear part and the
translation row), and the last matrix column is implicitly `0, 0, 0, 1`.
The parser stores this matrix transposed (`mathutils` acts on column
vectors, the 3MF encoding is written for row vectors). -/
def specTransformMatrix (ts : List ℚ) : Mat4 :=
  Matrix.of fun i j =>
    if (j : ℕ) = 3 then (if (i : ℕ) = 3 then 1 else 0)
    else ts.getD (3 * (i : ℕ) + (j : ℕ)) 0

/-- Fuel sufficient for `build_object`: one more than the number of
distinct resource IDs not yet on the ancestor stack. -/
def buildBound (ros : ResourceStore) (stack : List String) : ℕ :=
  ((ros.map Prod.fst).toFinset \ stack.toFinset).card + 1

/-- An index-normalised reformulation of the `parse_transformation` loop:
`n` is the position of the next token in the twelve-number encoding.  The
loop counters `(row, col)` of the source correspond to `n = 3·col + row`
for the cell being written. -/
def parseIdx : List String → ℕ → Mat4 → Mat4
  | [], _, result => result
  | component :: rest, n, result =>
    if 12 ≤ n then result
    else
      match pyFloat? component with
      | none => parseIdx rest (n + 1) result
      | some v => parseIdx rest (n + 1) (setCell result ((n % 3 : ℕ) : ℤ) ((n / 3 : ℕ) : ℤ) v)

/-! # Theorems -/

/-! ## Metadata store lemmas -/

theorem alistFind?_eq_none {κ α : Type} [DecidableEq κ] {m : List (κ × α)} {k : κ} :
    alistFind? m k = none ↔ ∀ p ∈ m, p.1 ≠ k := by
  induction m with
  | nil => simp [alistFind?]
  | cons p m ih => by_cases hk : p.1 = k <;> simp [alistFind?, hk, ih]

theorem alistFind?_append_single {κ α : Type} [DecidableEq κ] {m : List (κ × α)} {k : κ}
    {v : α} (h : alistFind? m k = none) : alistFind? (m ++ [(k, v)]) k = some v := by
  induction m with
  | nil => simp [alistFind?]
  | cons p m ih =>
    by_cases hk : p.1 = k
    · simp [alistFind?, hk] at h
    · simp only [List.cons_append, alistFind?, hk, if_false] at h ⊢
      exact ih h

namespace Metadata

theorem find?_eq_none {m : Metadata} {k : String} :
    find? m k = none ↔ ∀ p ∈ m, p.1 ≠ k :=
  alistFind?_eq_none

theorem find?_append_single {m : Metadata} {k : String} {v : Option MetadataEntry}
    (h : find? m k = none) : find? (m ++ [(k, v)]) k = some v :=
  alistFind?_append_single h

theorem find?_replace {m : Metadata} {k : String} {v : Option MetadataEntry} :
    find? (replace m k v) k = (find? m k).map fun _ => v := by
  induction m with
  | nil => rfl
  | cons p m ih =>
    by_cases hk : p.1 = k
    · simp [find?, replace, alistFind?, hk]
    · simp only [find?, replace, List.map_cons] at ih ⊢
      simp [alistFind?, hk, ih]

theorem keys_replace {m : Metadata} {k : String} {v : Option MetadataEntry} :
    (replace m k v).map Prod.fst = m.map Prod.fst := by
  induction m with
  | nil => rfl
  | cons p m ih =>
    simp only [replace, List.map_cons] at ih ⊢
    by_cases hk : p.1 = k <;> simp [hk, ih]

theorem keys_setItem_nodup {m : Metadata} {k : String} {e : MetadataEntry}
    (h : (m.map Prod.fst).Nodup) : ((setItem m k e).map Prod.fst).Nodup := by
  rcases hf : find? m k with _ | (_ | c)
  · have h1 : setItem m k e = m ++ [(k, some e)] := by simp [setItem, hf]
    have hk : k ∉ m.map Prod.fst := by
      rw [find?_eq_none] at hf
      simp only [List.mem_map]
      rintro ⟨p, hp, rfl⟩
      exact hf p hp rfl
    rw [h1, List.map_append]
    refine List.Nodup.append h (by simp) ?_
    intro a ha hb
    simp only [List.map_cons, List.map_nil, List.mem_singleton] at hb
    subst hb
    exact hk ha
  · have h1 : setItem m k e = m := by simp [setItem, hf]
    rw [h1]; exact h
  · by_cases h1 : e.value ≠ c.value ∨ e.datatype ≠ c.datatype
    · have h2 : setItem m k e = replace m k none := by
        simp only [setItem, hf]
        rw [if_pos h1]
      rw [h2, keys_replace]; exact h
    · by_cases h2 : ¬c.preserve ∧ e.preserve
      · have h3 : setItem m k e = replace m k (some ⟨k, true, c.datatype, c.value⟩) := by
          simp only [setItem, hf]
          rw [if_neg h1, if_pos h2]
        rw [h3, keys_replace]; exact h
      · have h3 : setItem m k e = m := by
          simp only [setItem, hf]
          rw [if_neg h1, if_neg h2]
        rw [h3]; exact h

theorem find?_of_mem_nodup {m : Metadata} {k : String} {v : Option MetadataEntry}
    (h : (m.map Prod.fst).Nodup) (hmem : (k, v) ∈ m) : find? m k = some v := by
  induction m with
  | nil => cases hmem
  | cons p m ih =>
    simp only [List.map_cons, List.nodup_cons] at h
    rcases List.mem_cons.mp hmem with heq | hmem'
    · rw [← heq]
      simp [find?, alistFind?]
    · have hne : p.1 ≠ k := by
        intro hcontra
        apply h.1
        rw [hcontra]
        exact List.mem_map.mpr ⟨(k, v), hmem', rfl⟩
      simp only [find?, alistFind?, hne, if_false]
      exact ih h.2 hmem'

/-- After two sets of the same key with entries that agree on datatype but
differ in value, the key is bound to the erasure marker. -/
theorem setItem_conflict {m : Metadata} {k : String} {e1 e2 : MetadataEntry}
    (hd : e1.datatype = e2.datatype) (hv : e1.value ≠ e2.value) :
    find? (setItem (setItem m k e1) k e2) k = some none := by
  have hv' : e2.value ≠ e1.value := fun hcontra => hv hcontra.symm
  rcases hf : find? m k with _ | (_ | c)
  · have h1 : setItem m k e1 = m ++ [(k, some e1)] := by simp [setItem, hf]
    have h2 : find? (setItem m k e1) k = some (some e1) := by
      rw [h1]; exact find?_append_single hf
    have h3 : setItem (setItem m k e1) k e2 = replace (setItem m k e1) k none := by
      generalize hM : setItem m k e1 = m1 at h2 ⊢
      simp only [setItem, h2]
      rw [if_pos (Or.inl hv')]
    rw [h3, find?_replace, h2]
    rfl
  · have h1 : setItem m k e1 = m := by simp [setItem, hf]
    have h2 : setItem m k e2 = m := by simp [setItem, hf]
    rw [h1, h2, hf]
  · by_cases hc : e1.value ≠ c.value ∨ e1.datatype ≠ c.datatype
    · have h1 : setItem m k e1 = replace m k none := by
        simp only [setItem, hf]
        rw [if_pos hc]
      have h2 : find? (setItem m k e1) k = some none := by
        rw [h1, find?_replace, hf]
        rfl
      have h3 : setItem (setItem m k e1) k e2 = setItem m k e1 := by
        generalize hM : setItem m k e1 = m1 at h2 ⊢
        simp [setItem, h2]
      rw [h3, h2]
    · push_neg at hc
      have hv2 : e2.value ≠ c.value := fun hx => hv (hc.1.trans hx.symm)
      by_cases hp : ¬c.preserve ∧ e1.preserve
      · have h1 : setItem m k e1 = replace m k (some ⟨k, true, c.datatype, c.value⟩) := by
          simp only [setItem, hf]
          rw [if_neg (by push_neg; exact hc), if_pos hp]
        have h2 : find? (setItem m k e1) k = some (some ⟨k, true, c.datatype, c.value⟩) := by
          rw [h1, find?_replace, hf]
          rfl
        have h3 : setItem (setItem m k e1) k e2 = replace (setItem m k e1) k none := by
          generalize hM : setItem m k e1 = m1 at h2 ⊢
          simp only [setItem, h2]
          rw [if_pos (Or.inl hv2)]
        rw [h3, find?_replace, h2]
        rfl
      · have h1 : setItem m k e1 = m := by
          simp only [setItem, hf]
          rw [if_neg (by push_neg; exact hc), if_neg hp]
        have h3 : setItem (setItem m k e1) k e2 = replace m k none := by
          rw [h1]
          simp only [setItem, hf]
          rw [if_pos (Or.inl hv2)]
        rw [h3, find?_replace, hf]
        rfl

theorem values_delItem_of_marker {m : Metadata} {k : String}
    (h : ∀ v, (k, v) ∈ m → v = none) :
    values m = values (delItem m k) := by
  induction m with
  | nil => rfl
  | cons p m ih =>
    have ih' := ih fun v hv => h v (List.mem_cons_of_mem _ hv)
    rcases p with ⟨k', v'⟩
    by_cases hk : k' = k
    · subst hk
      have hv' : v' = none := h v' (List.mem_cons_self _ _)
      subst hv'
      simpa [values, delItem] using ih'
    · cases v' with
      | none => simpa [values, delItem, hk] using ih'
      | some e =>
        simp only [values, delItem] at ih' ⊢
        rw [List.filter_cons, List.filterMap_cons]
        simp only [hk, ne_eq, not_false_iff, decide_True, if_true, List.filterMap_cons, ih']

end Metadata

/-- C3: in the Metadata store, for every key: setting the key to an entry
`(v1, d)` and then to an entry `(v2, d)` with `v1 ≠ v2` makes the key
erased — a subsequent get fails with the not-found error exactly as for a
never-set key, the key contributes nothing to `values()` (the values are
those of the store with the key deleted), and further sets of the key are
no-ops until it is deleted. -/
theorem metadata_conflict_erasure (m : Metadata) (k : String) (e1 e2 : MetadataEntry)
    (hnodup : (m.map Prod.fst).Nodup) (hd : e1.datatype = e2.datatype)
    (hv : e1.value ≠ e2.value) :
    Metadata.getItem (Metadata.setItem (Metadata.setItem m k e1) k e2) k = none
    ∧ Metadata.getItem ([] : Metadata) k = none
    ∧ Metadata.values (Metadata.setItem (Metadata.setItem m k e1) k e2) =
        Metadata.values
          (Metadata.delItem (Metadata.setItem (Metadata.setItem m k e1) k e2) k)
    ∧ ∀ e3, Metadata.setItem (Metadata.setItem (Metadata.setItem m k e1) k e2) k e3 =
        Metadata.setItem (Metadata.setItem m k e1) k e2 := by
  have hmarker := Metadata.setItem_conflict (m := m) (k := k) hd hv
  have hnodup2 : ((Metadata.setItem (Metadata.setItem m k e1) k e2).map Prod.fst).Nodup :=
    Metadata.keys_setItem_nodup (Metadata.keys_setItem_nodup hnodup)
  refine ⟨?_, rfl, ?_, ?_⟩
  · simp [Metadata.getItem, hmarker]
  · refine Metadata.values_delItem_of_marker fun v hv' => ?_
    have h1 := Metadata.find?_of_mem_nodup hnodup2 hv'
    rw [hmarker] at h1
    exact (Option.some_inj.mp h1).symm
  · intro e3
    generalize hM : Metadata.setItem (Metadata.setItem m k e1) k e2 = m2 at hmarker ⊢
    simp [Metadata.setItem, hmarker]

/-- Witness for C3 at a concrete store and concrete conflicting entries. -/
theorem metadata_conflict_erasure_witness :
    Metadata.getItem
      (Metadata.setItem (Metadata.setItem [] "k" ⟨"k", false, "string", some "v1"⟩)
        "k" ⟨"k", false, "string", some "v2"⟩) "k" = none :=
  (metadata_conflict_erasure [] "k" ⟨"k", false, "string", some "v1"⟩
    ⟨"k", false, "string", some "v2"⟩ (by simp) rfl (by simp)).1

/-- C10: deleting a key from the Metadata store is total and idempotent —
it is defined for every store and key (also when the key was never set, or
holds the erasure marker), afterwards the key is absent (get fails), and a
subsequent set stores the new entry afresh. -/
theorem metadata_delete_total (m : Metadata) (k : String) (e : MetadataEntry) :
    Metadata.delItem (Metadata.delItem m k) k = Metadata.delItem m k
    ∧ Metadata.find? (Metadata.delItem m k) k = none
    ∧ Metadata.getItem (Metadata.delItem m k) k = none
    ∧ Metadata.setItem (Metadata.delItem m k) k e = Metadata.delItem m k ++ [(k, some e)]
    ∧ Metadata.getItem (Metadata.setItem (Metadata.delItem m k) k e) k = some e := by
  have hnone : Metadata.find? (Metadata.delItem m k) k = none := by
    rw [Metadata.find?_eq_none]
    intro p hp
    simpa using List.of_mem_filter hp
  refine ⟨?_, hnone, ?_, ?_, ?_⟩
  · simp only [Metadata.delItem]
    rw [List.filter_filter]
    simp
  · simp [Metadata.getItem, hnone]
  · simp [Metadata.setItem, hnone]
  · have hset : Metadata.setItem (Metadata.delItem m k) k e =
        Metadata.delItem m k ++ [(k, some e)] := by simp [Metadata.setItem, hnone]
    rw [hset]
    simp [Metadata.getItem, Metadata.find?_append_single hnone]

/-! ## Number formatter lemmas -/

theorem digitChar_isDigit : ∀ k, k < 10 → (digitChar k).isDigit = true := by decide

theorem natDigitsGo_digits (fuel : ℕ) : ∀ (n : ℕ), ∀ c ∈ natDigitsGo fuel n, c.isDigit = true := by
  induction fuel with
  | zero => intro n c hc; simp [natDigitsGo] at hc
  | succ fuel ih =>
    intro n c hc
    by_cases hn : n < 10
    · simp only [natDigitsGo, if_pos hn, List.mem_singleton] at hc
      subst hc
      exact digitChar_isDigit n hn
    · simp only [natDigitsGo, if_neg hn, List.mem_append, List.mem_singleton] at hc
      rcases hc with hc | hc
      · exact ih _ c hc
      · subst hc
        exact digitChar_isDigit _ (Nat.mod_lt _ (by omega))

theorem natDigits_digits {n : ℕ} {c : Char} (hc : c ∈ natDigits n) : c.isDigit = true :=
  natDigitsGo_digits _ _ _ hc

theorem fixedFormat_chars {q : ℚ} {d : ℕ} {c : Char} (hc : c ∈ fixedFormat q d) :
    c.isDigit = true ∨ c = '-' ∨ c = '.' := by
  unfold fixedFormat at hc
  simp only [List.mem_append] at hc
  have hds : ∀ x ∈ List.replicate
      (d + 1 - (natDigits (roundHalfEven (↑(roundHalfEven ((q.num.natAbs : ℤ) * 10 ^ d) q.den).toNat : ℤ) 1).toNat).length) '0' ++
      natDigits (roundHalfEven ((q.num.natAbs : ℤ) * 10 ^ d) q.den).toNat,
      x.isDigit = true := by
    intro x hx
    rcases List.mem_append.mp hx with hx | hx
    · rw [List.eq_of_mem_replicate hx]; decide
    · exact natDigits_digits hx
  rcases hc with (hc | hc) | hc
  · right; left
    by_cases hneg : q.num < 0
    · simp only [if_pos hneg, List.mem_singleton] at hc; exact hc
    · simp only [if_neg hneg, List.not_mem_nil] at hc
  · left
    have := List.take_subset _ _ hc
    rcases List.mem_append.mp this with hx | hx
    · rw [List.eq_of_mem_replicate hx]; decide
    · exact natDigits_digits hx
  · by_cases hd : d = 0
    · simp [hd] at hc
    · simp only [hd, if_false, List.mem_cons] at hc
      rcases hc with hc | hc
      · right; right; exact hc
      · left
        have := List.drop_subset _ _ hc
        rcases List.mem_append.mp this with hx | hx
        · rw [List.eq_of_mem_replicate hx]; decide
        · exact natDigits_digits hx

theorem rdropWhile_append_replicate {α : Type} [DecidableEq α] (p : α → Bool) (x : α)
    (hx : p x = true) (l : List α) :
    ∀ n, List.rdropWhile p (l ++ List.replicate n x) = List.rdropWhile p l := by
  intro n
  induction n with
  | zero => simp
  | succ n ih =>
    rw [List.replicate_succ', ← List.append_assoc, List.rdropWhile_concat_pos _ _ _ hx]
    exact ih

/-- C9: the number formatter renders fixed-decimal notation — every output
character is a digit, a minus sign or a decimal point, never an exponent
marker — an all-zero result renders as the literal `"0"` at every
precision, and the spec's examples: 3.14159 at precision 2 gives `"3.14"`
and 30.10 at precision 1 gives `"30.1"` (trailing zero stripped). -/
theorem format_number_fixed_decimal (q : ℚ) (d : ℕ) :
    (∀ c ∈ (format_number q d).data, c.isDigit = true ∨ c = '-' ∨ c = '.')
    ∧ format_number 0 d = "0"
    ∧ format_number (mkRat 314159 100000) 2 = "3.14"
    ∧ format_number (mkRat 301 10) 1 = "30.1" := by
  refine ⟨?_, ?_, by decide, by decide⟩
  · intro c hc
    simp only [format_number] at hc
    by_cases hempty :
        ((fixedFormat q d).rdropWhile (· = '0')).rdropWhile (· = '.') = []
    · rw [if_pos hempty] at hc
      have : c = '0' := by simpa using hc
      subst this
      left; decide
    · rw [if_neg hempty] at hc
      have h1 : c ∈ ((fixedFormat q d).rdropWhile (· = '0')).rdropWhile (· = '.') := hc
      have h2 : c ∈ (fixedFormat q d).rdropWhile (· = '0') :=
        (List.rdropWhile_prefix _ _).subset h1
      exact fixedFormat_chars ((List.rdropWhile_prefix _ _).subset h2)
  · have hm : roundHalfEven (((0 : ℚ).num.natAbs : ℤ) * 10 ^ d) (0 : ℚ).den = 0 := by
      norm_num [roundHalfEven, Int.zero_fdiv]
    have hf : fixedFormat 0 d = ['0'] ++ (if d = 0 then [] else '.' :: List.replicate d '0') := by
      unfold fixedFormat
      rw [hm]
      dsimp only
      have hneg : ¬((0 : ℚ).num < 0) := by norm_num
      rw [if_neg hneg]
      have hnd : natDigits (Int.toNat 0) = ['0'] := rfl
      rw [hnd]
      simp only [List.length_singleton, Nat.add_sub_cancel]
      rw [← List.replicate_succ']
      have hlen : (List.replicate (d + 1) '0').length = d + 1 := List.length_replicate _ _
      rw [hlen]
      have htake : List.take (d + 1 - d) (List.replicate (d + 1) '0') = ['0'] := by
        rw [List.take_replicate]
        have h1 : min (d + 1 - d) (d + 1) = 1 := by omega
        rw [h1]
        rfl
      have hdrop : List.drop (d + 1 - d) (List.replicate (d + 1) '0') = List.replicate d '0' := by
        rw [List.drop_replicate]
        have h1 : d + 1 - (d + 1 - d) = d := by omega
        rw [h1]
      rw [htake, hdrop]
      rfl
    simp only [format_number, hf]
    by_cases hd : d = 0
    · subst hd
      decide
    · rw [if_neg hd]
      have : (['0'] ++ '.' :: List.replicate d '0') = ['0', '.'] ++ List.replicate d '0' := by
        simp
      rw [this, rdropWhile_append_replicate _ _ (by decide)]
      decide

/-- Witness for C9: the character property applied at a concrete format
call and character. -/
theorem format_number_fixed_decimal_witness :
    ('3'.isDigit = true ∨ '3' = '-' ∨ '3' = '.')
    ∧ format_number (mkRat 301 10) 1 = "30.1" :=
  ⟨(format_number_fixed_decimal (mkRat 301 10) 1).1 '3' (by decide),
   (format_number_fixed_decimal (mkRat 301 10) 1).2.2.2⟩

/-! ## Content-type and package-reader lemmas -/

theorem alistFind?_append {κ α : Type} [DecidableEq κ] (m₁ m₂ : List (κ × α)) (k : κ) :
    alistFind? (m₁ ++ m₂) k =
      match alistFind? m₁ k with
      | some v => some v
      | none => alistFind? m₂ k := by
  induction m₁ with
  | nil => simp [alistFind?]
  | cons p m ih =>
    by_cases hk : p.1 = k <;> simp [alistFind?, hk, ih]

theorem alistFind?_mapReplace_ne {α : Type} (m : List (String × α)) (k k' : String) (v : α)
    (h : k' ≠ k) :
    alistFind? (m.map fun p => if p.1 = k then (k, v) else p) k' = alistFind? m k' := by
  induction m with
  | nil => rfl
  | cons p m ih =>
    by_cases hp : p.1 = k
    · have h1 : k ≠ k' := fun hx => h hx.symm
      have h2 : p.1 ≠ k' := by rw [hp]; exact h1
      simp [alistFind?, hp, h1, h2, ih]
    · simp only [List.map_cons, if_neg hp, alistFind?, ih]

theorem alistFind?_mapReplace_eq {α : Type} (m : List (String × α)) (k : String) (v : α)
    (h : (alistFind? m k).isSome) :
    alistFind? (m.map fun p => if p.1 = k then (k, v) else p) k = some v := by
  induction m with
  | nil => simp [alistFind?] at h
  | cons p m ih =>
    by_cases hp : p.1 = k
    · simp [alistFind?, hp]
    · simp only [alistFind?, hp, if_neg, if_false] at h
      simp only [List.map_cons, if_neg hp, alistFind?, hp, if_false]
      exact ih h

theorem alistFind?_dictSet {α : Type} (m : List (String × α)) (k k' : String) (v : α) :
    alistFind? (dictSet m k v) k' = if k' = k then some v else alistFind? m k' := by
  unfold dictSet
  by_cases hsome : (alistFind? m k).isSome
  · rw [if_pos hsome]
    by_cases hk : k' = k
    · subst hk
      rw [if_pos rfl]
      exact alistFind?_mapReplace_eq m k' v hsome
    · rw [if_neg hk]
      exact alistFind?_mapReplace_ne m k k' v hk
  · rw [if_neg hsome]
    rw [alistFind?_append]
    by_cases hk : k' = k
    · subst hk
      have hnone : alistFind? m k' = none := by
        rcases h : alistFind? m k' with _ | w
        · rfl
        · rw [h] at hsome; simp at hsome
      rw [hnone, if_pos rfl]
      simp [alistFind?]
    · rcases h : alistFind? m k' with _ | w
      · have hkk : (k : String) ≠ k' := fun hx => hk hx.symm
        simp [alistFind?, hkk, hk]
      · rw [if_neg hk]

theorem firstMatch_append (l₁ l₂ : List (CTPattern × String)) (p : String) :
    firstMatch (l₁ ++ l₂) p =
      match firstMatch l₁ p with
      | some v => some v
      | none => firstMatch l₂ p := by
  induction l₁ with
  | nil => simp [firstMatch]
  | cons pc l ih =>
    by_cases h : pc.1.matches p = true <;> simp [firstMatch, h, ih]

theorem firstMatch_eq_none (l : List (CTPattern × String)) (p : String)
    (h : ∀ pr ∈ l, pr.1.matches p = false) : firstMatch l p = none := by
  induction l with
  | nil => rfl
  | cons pc l ih =>
    have h1 := h pc (List.mem_cons_self _ _)
    simp only [firstMatch, h1]
    simp only [Bool.false_eq_true, if_false]
    exact ih fun pr hpr => h pr (List.mem_cons_of_mem _ hpr)

theorem firstMatch_of_exists (l : List (CTPattern × String)) (p : String)
    (h : ∃ pr ∈ l, pr.1.matches p = true) :
    ∃ pat m', firstMatch l p = some m' ∧ (pat, m') ∈ l ∧ pat.matches p = true := by
  induction l with
  | nil => simp at h
  | cons pc l ih =>
    by_cases h1 : pc.1.matches p = true
    · exact ⟨pc.1, pc.2, by simp [firstMatch, h1], by simp, h1⟩
    · rcases h with ⟨pr, hpr, hmatch⟩
      rcases List.mem_cons.mp hpr with rfl | hpr'
      · exact absurd hmatch h1
      · rcases ih ⟨pr, hpr', hmatch⟩ with ⟨pat, m', hfm, hmem, hmatch'⟩
        exact ⟨pat, m', by simp [firstMatch, h1, hfm], List.mem_cons_of_mem _ hmem, hmatch'⟩

theorem lookup_assign_aux (rules : List (CTPattern × String)) (p : String) :
    ∀ (files : List String) (acc : List (String × String)),
      lookupStr (files.foldl
        (fun result file_path =>
          if file_path = CONTENT_TYPES_LOCATION then result
          else dictSet result file_path (assignValue rules file_path)) acc) p =
      if p ∈ files ∧ p ≠ CONTENT_TYPES_LOCATION then some (assignValue rules p)
      else lookupStr acc p := by
  intro files
  induction files with
  | nil => intro acc; simp
  | cons f fs ih =>
    intro acc
    simp only [List.foldl_cons]
    rw [ih]
    by_cases hf : f = CONTENT_TYPES_LOCATION
    · rw [if_pos hf]
      by_cases hp : p ∈ fs ∧ p ≠ CONTENT_TYPES_LOCATION
      · rw [if_pos hp, if_pos ⟨List.mem_cons_of_mem _ hp.1, hp.2⟩]
      · rw [if_neg hp, if_neg]
        rintro ⟨hmem, hne⟩
        rcases List.mem_cons.mp hmem with rfl | hmem'
        · exact hne hf
        · exact hp ⟨hmem', hne⟩
    · rw [if_neg hf]
      by_cases hp : p ∈ fs ∧ p ≠ CONTENT_TYPES_LOCATION
      · rw [if_pos hp, if_pos ⟨List.mem_cons_of_mem _ hp.1, hp.2⟩]
      · rw [if_neg hp]
        unfold lookupStr
        rw [alistFind?_dictSet]
        by_cases hpf : p = f
        · subst hpf
          rw [if_pos rfl, if_pos ⟨List.mem_cons_self _ _, hf⟩]
        · rw [if_neg hpf, if_neg]
          rintro ⟨hmem, hne⟩
          rcases List.mem_cons.mp hmem with rfl | hmem'
          · exact hpf rfl
          · exact hp ⟨hmem', hne⟩

theorem lookup_assign (rules : List (CTPattern × String)) (files : List String) (p : String) :
    lookupStr (assign_content_types files rules) p =
      if p ∈ files ∧ p ≠ CONTENT_TYPES_LOCATION then some (assignValue rules p)
      else none := by
  unfold assign_content_types
  rw [lookup_assign_aux]
  rfl

/-- C5: content-type resolution: the rules are all Overrides (exact path
match) before all Defaults (extension suffix match) before the two
built-in lowest-priority fallbacks for `*.rels` and `*.model`; every
archive part except the content-types file itself is assigned the MIME
type of the first matching rule (the empty string when none matches); and
an Override for a path beats every rule after it, in particular a Default
for that path's extension. -/
theorem content_type_priority (doc : ContentTypesDoc) (files : List String) (p : String) :
    read_content_types (some doc) =
      overrideRules doc ++ defaultRules doc ++
        [(.extSuffix "rels", RELS_MIMETYPE), (.extSuffix "model", MODEL_MIMETYPE)]
    ∧ read_content_types none =
        [(.extSuffix "rels", RELS_MIMETYPE), (.extSuffix "model", MODEL_MIMETYPE)]
    ∧ (∀ rules, lookupStr (assign_content_types files rules) p =
        if p ∈ files ∧ p ≠ CONTENT_TYPES_LOCATION then some (assignValue rules p) else none)
    ∧ (∀ rules, (∀ pr ∈ rules, pr.1.matches p = false) → assignValue rules p = "")
    ∧ (∀ mo, (CTPattern.exact p, mo) ∈ overrideRules doc →
        ∃ m', assignValue (read_content_types (some doc)) p = m'
          ∧ (CTPattern.exact p, m') ∈ overrideRules doc) := by
  refine ⟨by simp [read_content_types], rfl, fun rules => lookup_assign rules files p,
    fun rules h => ?_, fun mo hmo => ?_⟩
  · unfold assignValue
    rw [firstMatch_eq_none _ _ h]
    rfl
  · have hmatch : (CTPattern.exact p).matches p = true := by
      simp [CTPattern.matches]
    rcases firstMatch_of_exists (overrideRules doc) p ⟨(CTPattern.exact p, mo), hmo, hmatch⟩
      with ⟨pat, m', hfm, hmem, hmatch'⟩
    have hpat : pat = CTPattern.exact p := by
      rcases pat with q | e
      · have : (CTPattern.exact q).matches p = true := hmatch'
        simp only [CTPattern.matches, decide_eq_true_eq] at this
        rw [this]
      · exfalso
        have := hmem
        unfold overrideRules at this
        rw [List.mem_filterMap] at this
        rcases this with ⟨node, _, hnode⟩
        rcases hn : node.partName with _ | q <;> rcases hc : node.contentType with _ | ct <;>
          simp [hn, hc] at hnode
    refine ⟨m', ?_, hpat ▸ hmem⟩
    unfold assignValue read_content_types
    dsimp only
    rw [firstMatch_append, firstMatch_append, hfm]
    rfl

/-- Witness for C5: the spec's own example — an Override for `/a/b.txt` as
`text/custom` next to a Default for extension `txt`; the assignment of
`/a/b.txt` is the Override's MIME type. -/
theorem content_type_priority_witness :
    ∃ m', assignValue (read_content_types (some
        ⟨[⟨some "/a/b.txt", some "text/custom"⟩], [⟨some "txt", some "text/plain"⟩]⟩))
        "/a/b.txt" = m'
      ∧ (CTPattern.exact "/a/b.txt", m') ∈ overrideRules
          ⟨[⟨some "/a/b.txt", some "text/custom"⟩], [⟨some "txt", some "text/plain"⟩]⟩ :=
  (content_type_priority
    ⟨[⟨some "/a/b.txt", some "text/custom"⟩], [⟨some "txt", some "text/plain"⟩]⟩
    ["/a/b.txt"] "/a/b.txt").2.2.2.2 "text/custom" (by decide)

theorem alistFind?_mapGroupAppend_ne (result : List (String × List String))
    (mi path k : String) (h : k ≠ mi) :
    alistFind? (result.map fun p => if p.1 = mi then (p.1, p.2 ++ [path]) else p) k =
      alistFind? result k := by
  induction result with
  | nil => rfl
  | cons p m ih =>
    by_cases hp : p.1 = mi
    · have hmk : mi ≠ k := fun hx => h hx.symm
      simp [alistFind?, hp, hmk, ih]
    · simp only [List.map_cons, if_neg hp, alistFind?, ih]

theorem alistFind?_mapGroupAppend_eq (result : List (String × List String))
    (mi path : String) (h : (alistFind? result mi).isSome) :
    alistFind? (result.map fun p => if p.1 = mi then (p.1, p.2 ++ [path]) else p) mi =
      some ((alistFind? result mi).getD [] ++ [path]) := by
  induction result with
  | nil => simp [alistFind?] at h
  | cons p m ih =>
    by_cases hp : p.1 = mi
    · simp [alistFind?, hp]
    · simp only [alistFind?, hp, if_false] at h
      simp only [List.map_cons, if_neg hp, alistFind?, hp, if_false]
      exact ih h

theorem alistFind?_dictAppend (result : List (String × List String)) (mi path k : String) :
    alistFind? (dictAppend result mi path) k =
      if k = mi then some ((alistFind? result mi).getD [] ++ [path])
      else alistFind? result k := by
  unfold dictAppend
  by_cases hsome : (alistFind? result mi).isSome
  · rw [if_pos hsome]
    by_cases hk : k = mi
    · subst hk
      rw [if_pos rfl]
      exact alistFind?_mapGroupAppend_eq result k path hsome
    · rw [if_neg hk]
      exact alistFind?_mapGroupAppend_ne result mi path k hk
  · rw [if_neg hsome]
    have hnone : alistFind? result mi = none := by
      rcases h : alistFind? result mi with _ | w
      · rfl
      · rw [h] at hsome; simp at hsome
    rw [alistFind?_append]
    by_cases hk : k = mi
    · subst hk
      rw [hnone]
      simp [alistFind?]
    · have hmk : mi ≠ k := fun hx => hk hx.symm
      rcases h : alistFind? result k with _ | w
      · simp [alistFind?, hmk, hk]
      · rw [if_neg hk]

theorem lookup_groupByMime (mime : String) :
    ∀ (pairs : List (String × String)) (acc : List (String × List String)),
      alistFind? (pairs.foldl (fun result pm => dictAppend result pm.2 pm.1) acc) mime =
        match alistFind? acc mime with
        | some l => some (l ++ (pairs.filter fun pm => pm.2 = mime).map Prod.fst)
        | none =>
          if pairs.any fun pm => pm.2 = mime then
            some ((pairs.filter fun pm => pm.2 = mime).map Prod.fst)
          else none := by
  intro pairs
  induction pairs with
  | nil =>
    intro acc
    rcases h : alistFind? acc mime with _ | l <;> simp [h]
  | cons pm pairs ih =>
    intro acc
    simp only [List.foldl_cons]
    rw [ih, alistFind?_dictAppend]
    by_cases hm : mime = pm.2
    · rw [if_pos hm]
      have hfilter : (pm :: pairs).filter (fun q => q.2 = mime) =
          pm :: pairs.filter fun q => q.2 = mime := by
        rw [List.filter_cons, if_pos (by simp [hm.symm])]
      have hany : ((pm :: pairs).any fun q => q.2 = mime) = true := by
        simp [List.any_cons, hm.symm]
      rw [hfilter, hany]
      rcases h : alistFind? acc mime with _ | l
      · rw [hm] at h
        rw [h]
        simp
      · rw [hm] at h
        rw [h]
        simp
    · rw [if_neg hm]
      have hfilter : (pm :: pairs).filter (fun q => q.2 = mime) =
          pairs.filter fun q => q.2 = mime := by
        rw [List.filter_cons, if_neg (by simp; exact fun hx => hm hx.symm)]
      have hany : ((pm :: pairs).any fun q => q.2 = mime) =
          (pairs.any fun q => q.2 = mime) := by
        simp only [List.any_cons, Bool.or_eq_true, decide_eq_true_eq]
        have : ¬pm.2 = mime := fun hx => hm hx.symm
        simp [this]
      rw [hfilter, hany]

/-- C8: the package reader's read-archive never propagates an open failure
— a zero-byte, non-zip or unreadable file (the caught `BadZipFile` /
`EnvironmentError` outcomes) yields the empty files-by-MIME map — and a
readable archive is grouped exactly by assigned MIME type, so an archive
in which no part is assigned the model MIME type yields a map with no
model entries. -/
theorem read_archive_no_escape (e : ZipError) (archive : ZipArchive) (mime : String) :
    read_archive (Except.error e) = []
    ∧ lookupStr (read_archive (Except.ok archive)) mime =
        (if (assign_content_types archive.filelist
              (read_content_types archive.contentTypesDoc)).any (fun pm => pm.2 = mime) then
          some (((assign_content_types archive.filelist
              (read_content_types archive.contentTypesDoc)).filter
                (fun pm => pm.2 = mime)).map Prod.fst)
        else none)
    ∧ ((∀ pm ∈ assign_content_types archive.filelist
          (read_content_types archive.contentTypesDoc), pm.2 ≠ MODEL_MIMETYPE) →
        lookupStr (read_archive (Except.ok archive)) MODEL_MIMETYPE = none) := by
  refine ⟨rfl, ?_, ?_⟩
  · unfold read_archive lookupStr
    dsimp only
    rw [lookup_groupByMime]
    rfl
  · intro h
    unfold read_archive lookupStr
    dsimp only
    rw [lookup_groupByMime]
    have hany : ((assign_content_types archive.filelist
        (read_content_types archive.contentTypesDoc)).any
          fun pm => pm.2 = MODEL_MIMETYPE) = false := by
      rw [List.any_eq_false]
      intro pm hpm
      simpa using h pm hpm
    rw [hany]
    rfl

/-- Witness for C8: a readable archive holding one text file and no
content-types document has no model entry in its files-by-MIME map. -/
theorem read_archive_no_escape_witness :
    lookupStr (read_archive (Except.ok ⟨["a.txt"], none⟩)) MODEL_MIMETYPE = none :=
  (read_archive_no_escape ZipError.badZipFile ⟨["a.txt"], none⟩ "").2.2 (by decide)

/-! ## Export material selection lemmas -/

theorem counterMostCommonGo_spec (full : List ℕ) :
    ∀ (rest p : List ℕ) (b : ℕ), full = p ++ rest → b ∈ p →
      (∀ x ∈ p, full.count x ≤ full.count b) →
      (∀ x ∈ p, full.count x = full.count b → full.indexOf b ≤ full.indexOf x) →
      ∃ c, counterMostCommonGo full rest (some b) = some c
        ∧ c ∈ full ∧ (∀ x ∈ full, full.count x ≤ full.count c)
        ∧ (∀ x ∈ full, full.count x = full.count c → full.indexOf c ≤ full.indexOf x) := by
  intro rest
  induction rest with
  | nil =>
    intro p b hfull hb hcount htie
    refine ⟨b, rfl, ?_, ?_, ?_⟩
    · rw [hfull]; exact List.mem_append_left _ hb
    · intro x hx
      rcases List.mem_append.mp (hfull ▸ hx) with hx' | hx'
      · exact hcount x hx'
      · cases hx'
    · intro x hx heq
      rcases List.mem_append.mp (hfull ▸ hx) with hx' | hx'
      · exact htie x hx' heq
      · cases hx'
  | cons y rest ih =>
    intro p b hfull hb hcount htie
    rw [counterMostCommonGo]
    by_cases hlt : full.count b < full.count y
    · rw [if_pos hlt]
      refine ih (p ++ [y]) y (by rw [hfull, List.append_assoc]; rfl)
        (List.mem_append_right _ (List.mem_singleton_self _)) ?_ ?_
      · intro x hx
        rcases List.mem_append.mp hx with hx' | hx'
        · exact le_of_lt (lt_of_le_of_lt (hcount x hx') hlt)
        · rw [List.mem_singleton.mp hx']
      · intro x hx heq
        rcases List.mem_append.mp hx with hx' | hx'
        · exact absurd heq (ne_of_lt (lt_of_le_of_lt (hcount x hx') hlt))
        · rw [List.mem_singleton.mp hx']
    · rw [if_neg hlt]
      push_neg at hlt
      refine ih (p ++ [y]) b (by rw [hfull, List.append_assoc]; rfl)
        (List.mem_append_left _ hb) ?_ ?_
      · intro x hx
        rcases List.mem_append.mp hx with hx' | hx'
        · exact hcount x hx'
        · rw [List.mem_singleton.mp hx']; exact hlt
      · intro x hx heq
        rcases List.mem_append.mp hx with hx' | hx'
        · exact htie x hx' heq
        · rw [List.mem_singleton.mp hx']
          by_cases hyp : y ∈ p
          · exact htie y hyp (by rw [← List.mem_singleton.mp hx']; exact heq)
          · rw [hfull, List.indexOf_append_of_mem hb,
              List.indexOf_append_of_not_mem hyp, List.indexOf_cons_self]
            exact le_of_lt (lt_of_lt_of_le (List.indexOf_lt_length.mpr hb) (Nat.le_add_right _ _))

theorem counterMostCommon_spec (l : List ℕ) (h : l ≠ []) :
    counterMostCommon l ∈ l
    ∧ (∀ x ∈ l, l.count x ≤ l.count (counterMostCommon l))
    ∧ (∀ x ∈ l, l.count x = l.count (counterMostCommon l) →
        l.indexOf (counterMostCommon l) ≤ l.indexOf x) := by
  rcases l with _ | ⟨y, rest⟩
  · exact absurd rfl h
  · rcases counterMostCommonGo_spec (y :: rest) rest [y] y rfl
      (List.mem_singleton_self _) (by intro x hx; rw [List.mem_singleton.mp hx])
      (by intro x hx _; rw [List.mem_singleton.mp hx]) with ⟨c, hgo, hmem, hcount, htie⟩
    have hval : counterMostCommon (y :: rest) = c := by
      unfold counterMostCommon
      rw [counterMostCommonGo, hgo]
      rfl
    rw [hval]
    exact ⟨hmem, hcount, htie⟩

/-- C6: on export, for an object with a non-empty triangle list and at
least one material slot (all triangle material indices in range), the
object-level default `pindex` written is the global index of the material
occurring on the most triangles (ties broken by the first-encountered
index), and a triangle carries a `p1` override exactly when its resolved
material index differs from that default. -/
theorem export_material_default (triangles : List LoopTriangle)
    (material_slots : List String) (nameToIndex : String → ℕ) (inds : List ℕ) (mc : ℕ)
    (hinds : inds = triangles.map LoopTriangle.material_index)
    (hmc : mc = counterMostCommon inds)
    (h1 : triangles ≠ []) (h2 : material_slots ≠ []) :
    writeObjectMaterial triangles material_slots nameToIndex =
      (some (nameToIndex (material_slots.getD mc "")), nameToIndex (material_slots.getD mc ""))
    ∧ mc ∈ inds
    ∧ (∀ x ∈ inds, inds.count x ≤ inds.count mc)
    ∧ (∀ x ∈ inds, inds.count x = inds.count mc → inds.indexOf mc ≤ inds.indexOf x)
    ∧ (∀ t ∈ triangles, t.material_index < material_slots.length →
        triangleP1 material_slots nameToIndex
            (nameToIndex (material_slots.getD mc "")) t =
          if nameToIndex (material_slots.getD t.material_index "") ≠
              nameToIndex (material_slots.getD mc "") then
            some (nameToIndex (material_slots.getD t.material_index ""))
          else none) := by
  have hne : inds ≠ [] := by
    rw [hinds]
    simpa using h1
  have hspec := counterMostCommon_spec inds hne
  subst hinds
  refine ⟨?_, hmc ▸ hspec.1, fun x hx => hmc ▸ hspec.2.1 x hx,
    fun x hx hcnt => ?_, fun t ht hrange => ?_⟩
  · unfold writeObjectMaterial
    rw [if_pos ⟨by simpa using h1, h2⟩, ← hmc]
  · subst hmc
    exact hspec.2.2 x hx hcnt
  · unfold triangleP1
    rw [if_pos hrange]

/-- Witness for C6: the spec's `{A, A, B}` example — two triangles with
material `A`, one with `B`; the default resolves to `A` (index 0) and the
`B` triangle gets `p1 = 1`. -/
theorem export_material_default_witness :
    writeObjectMaterial
        [⟨(0, 1, 2), 0⟩, ⟨(3, 4, 5), 0⟩, ⟨(6, 7, 8), 1⟩] ["A", "B"]
        (fun n => if n = "B" then 1 else 0) = (some 0, 0)
    ∧ triangleP1 ["A", "B"] (fun n => if n = "B" then 1 else 0) 0 ⟨(6, 7, 8), 1⟩ = some 1 := by
  have h := export_material_default
    [⟨(0, 1, 2), 0⟩, ⟨(3, 4, 5), 0⟩, ⟨(6, 7, 8), 1⟩] ["A", "B"]
    (fun n => if n = "B" then 1 else 0) [0, 0, 1] 0 (by decide) (by decide)
    (by decide) (by decide)
  refine ⟨h.1, ?_⟩
  have h2 := h.2.2.2.2 ⟨(6, 7, 8), 1⟩ (by decide) (by decide)
  simpa using h2

/-! ## Transform parser lemmas -/

theorem setCell_apply (M : Mat4) (r c : ℤ) (v : ℚ) (i j : Fin 4) :
    setCell M r c v i j = if ((i : ℕ) : ℤ) = r ∧ ((j : ℕ) : ℤ) = c then v else M i j := rfl


theorem parseIdx_cell (toks : List String) :
    ∀ (n : ℕ) (M : Mat4) (i j : Fin 4), n ≤ 12 →
      parseIdx toks n M i j =
        if (i : ℕ) < 3 ∧ n ≤ 3 * (j : ℕ) + (i : ℕ)
            ∧ 3 * (j : ℕ) + (i : ℕ) - n < toks.length then
          (pyFloat? (toks.getD (3 * (j : ℕ) + (i : ℕ) - n) "")).getD (M i j)
        else M i j := by
  induction toks with
  | nil =>
    intro n M i j _
    rw [parseIdx, if_neg]
    rintro ⟨_, _, h3⟩
    simp at h3
  | cons t rest ih =>
    intro n M i j hn
    have hi4 := i.isLt
    have hj4 := j.isLt
    by_cases h12 : 12 ≤ n
    · simp only [parseIdx, if_pos h12]
      rw [if_neg]
      rintro ⟨hi3, hle, _⟩
      omega
    · simp only [parseIdx, if_neg h12]
      push_neg at h12
      rcases hpf : pyFloat? t with _ | v
      · dsimp only
        rw [ih (n + 1) M i j (by omega)]
        by_cases hcase : (i : ℕ) < 3 ∧ 3 * (j : ℕ) + (i : ℕ) = n
        · have hnot : ¬((i : ℕ) < 3 ∧ n + 1 ≤ 3 * (j : ℕ) + (i : ℕ)
              ∧ 3 * (j : ℕ) + (i : ℕ) - (n + 1) < rest.length) := by
            rintro ⟨_, h2, _⟩
            omega
          rw [if_neg hnot, if_pos ⟨hcase.1, by omega, by simp only [List.length_cons]; omega⟩]
          have hidx : 3 * (j : ℕ) + (i : ℕ) - n = 0 := by omega
          rw [hidx, List.getD_cons_zero, hpf]
          rfl
        · by_cases hcond : (i : ℕ) < 3 ∧ n + 1 ≤ 3 * (j : ℕ) + (i : ℕ)
              ∧ 3 * (j : ℕ) + (i : ℕ) - (n + 1) < rest.length
          · rw [if_pos hcond,
              if_pos ⟨hcond.1, by omega, by simp only [List.length_cons]; omega⟩]
            have hidx : 3 * (j : ℕ) + (i : ℕ) - n =
                (3 * (j : ℕ) + (i : ℕ) - (n + 1)) + 1 := by omega
            rw [hidx, List.getD_cons_succ]
          · rw [if_neg hcond, if_neg]
            rintro ⟨h1, h2, h3⟩
            simp only [List.length_cons] at h3
            have hkne : 3 * (j : ℕ) + (i : ℕ) ≠ n := fun he => hcase ⟨h1, he⟩
            exact hcond ⟨h1, by omega, by omega⟩
      · dsimp only
        rw [ih (n + 1) _ i j (by omega)]
        have hsc : setCell M ((n % 3 : ℕ) : ℤ) ((n / 3 : ℕ) : ℤ) v i j =
            if (i : ℕ) = n % 3 ∧ (j : ℕ) = n / 3 then v else M i j := by
          rw [setCell_apply]
          exact if_congr (by omega) rfl rfl
        by_cases hc : (i : ℕ) = n % 3 ∧ (j : ℕ) = n / 3
        · have hkn : 3 * (j : ℕ) + (i : ℕ) = n := by omega
          have hi3 : (i : ℕ) < 3 := by omega
          have hnot : ¬((i : ℕ) < 3 ∧ n + 1 ≤ 3 * (j : ℕ) + (i : ℕ)
              ∧ 3 * (j : ℕ) + (i : ℕ) - (n + 1) < rest.length) := by
            rintro ⟨_, h2, _⟩
            omega
          rw [if_neg hnot, hsc, if_pos hc,
            if_pos (⟨hi3, by omega, by simp only [List.length_cons]; omega⟩ :
              (i : ℕ) < 3 ∧ n ≤ 3 * (j : ℕ) + (i : ℕ)
                ∧ 3 * (j : ℕ) + (i : ℕ) - n < (t :: rest).length)]
          have hidx : 3 * (j : ℕ) + (i : ℕ) - n = 0 := by omega
          rw [hidx, List.getD_cons_zero, hpf]
          rfl
        · have hcell : ∀ (_ : (i : ℕ) < 3), 3 * (j : ℕ) + (i : ℕ) ≠ n := by
            intro hi3 he
            exact hc ⟨by omega, by omega⟩
          rw [hsc, if_neg hc]
          by_cases hcond : (i : ℕ) < 3 ∧ n + 1 ≤ 3 * (j : ℕ) + (i : ℕ)
              ∧ 3 * (j : ℕ) + (i : ℕ) - (n + 1) < rest.length
          · rw [if_pos hcond,
              if_pos ⟨hcond.1, by omega, by simp only [List.length_cons]; omega⟩]
            have hidx : 3 * (j : ℕ) + (i : ℕ) - n =
                (3 * (j : ℕ) + (i : ℕ) - (n + 1)) + 1 := by omega
            rw [hidx, List.getD_cons_succ]
          · rw [if_neg hcond, if_neg]
            rintro ⟨h1, h2, h3⟩
            simp only [List.length_cons] at h3
            have hkne := hcell h1
            exact hcond ⟨h1, by omega, by omega⟩

theorem parseTransformationGo_eq_parseIdx :
    ∀ (toks : List String) (p : ℕ) (M : Mat4), p < 12 →
      parseTransformationGo toks ((p % 3 : ℕ) : ℤ) ((p / 3 : ℕ) : ℤ) M =
        parseIdx toks (p + 1) M := by
  intro toks
  induction toks with
  | nil => intro p M _; rfl
  | cons t rest ih =>
    intro p M hp
    simp only [parseTransformationGo, parseIdx]
    by_cases hp2 : p % 3 = 2
    · have hcp : ((p % 3 : ℕ) : ℤ) + 1 > 2 := by omega
      rw [if_pos hcp, if_pos hcp]
      by_cases hbr : p = 11
      · subst hbr
        rw [if_pos (by norm_num : ((11 / 3 : ℕ) : ℤ) + 1 > 3),
          if_pos (by norm_num : 12 ≤ 11 + 1)]
      · rw [if_neg (by omega : ¬(((p / 3 : ℕ) : ℤ) + 1 > 3)),
          if_neg (by omega : ¬(12 ≤ p + 1))]
        rcases hpf : pyFloat? t with _ | v
        · dsimp only
          rw [show (0 : ℤ) = (((p + 1) % 3 : ℕ) : ℤ) by omega,
            show ((p / 3 : ℕ) : ℤ) + 1 = (((p + 1) / 3 : ℕ) : ℤ) by omega,
            ih (p + 1) M (by omega)]
        · dsimp only
          rw [show (0 : ℤ) = (((p + 1) % 3 : ℕ) : ℤ) by omega,
            show ((p / 3 : ℕ) : ℤ) + 1 = (((p + 1) / 3 : ℕ) : ℤ) by omega,
            ih (p + 1) _ (by omega)]
    · have hcp : ¬(((p % 3 : ℕ) : ℤ) + 1 > 2) := by omega
      rw [if_neg hcp, if_neg hcp]
      rw [if_neg (by omega : ¬(((p / 3 : ℕ) : ℤ) > 3)),
        if_neg (by omega : ¬(12 ≤ p + 1))]
      rcases hpf : pyFloat? t with _ | v
      · dsimp only
        rw [show ((p % 3 : ℕ) : ℤ) + 1 = (((p + 1) % 3 : ℕ) : ℤ) by omega,
          show ((p / 3 : ℕ) : ℤ) = (((p + 1) / 3 : ℕ) : ℤ) by omega,
          ih (p + 1) M (by omega)]
      · dsimp only
        rw [show ((p % 3 : ℕ) : ℤ) + 1 = (((p + 1) % 3 : ℕ) : ℤ) by omega,
          show ((p / 3 : ℕ) : ℤ) = (((p + 1) / 3 : ℕ) : ℤ) by omega,
          ih (p + 1) _ (by omega)]

theorem parseTransformationGo_init (toks : List String) (M : Mat4) :
    parseTransformationGo toks (-1) 0 M = parseIdx toks 0 M := by
  cases toks with
  | nil => rfl
  | cons t rest =>
    simp only [parseTransformationGo, parseIdx]
    rw [if_neg (by norm_num : ¬((-1 : ℤ) + 1 > 2)), if_neg (by norm_num : ¬((-1 : ℤ) + 1 > 2))]
    rw [if_neg (by norm_num : ¬((0 : ℤ) > 3)), if_neg (by norm_num : ¬(12 ≤ 0))]
    rcases hpf : pyFloat? t with _ | v
    · dsimp only
      rw [show ((-1 : ℤ) + 1) = ((0 % 3 : ℕ) : ℤ) by norm_num,
        show ((0 : ℤ)) = ((0 / 3 : ℕ) : ℤ) by norm_num,
        parseTransformationGo_eq_parseIdx rest 0 M (by norm_num)]
    · dsimp only
      rw [show ((-1 : ℤ) + 1) = ((0 % 3 : ℕ) : ℤ) by norm_num,
        show ((0 : ℤ)) = ((0 / 3 : ℕ) : ℤ) by norm_num,
        parseTransformationGo_eq_parseIdx rest 0 _ (by norm_num)]

theorem parse_transformation_cell (s : String) (hs : s ≠ "") (i j : Fin 4) :
    parse_transformation s i j =
      if (i : ℕ) < 3 ∧ 3 * (j : ℕ) + (i : ℕ) < (splitSpaces s).length then
        (pyFloat? ((splitSpaces s).getD (3 * (j : ℕ) + (i : ℕ)) "")).getD ((1 : Mat4) i j)
      else (1 : Mat4) i j := by
  unfold parse_transformation
  rw [if_neg hs, parseTransformationGo_init, parseIdx_cell _ 0 _ i j (by omega)]
  simp only [Nat.sub_zero]
  exact if_congr (by omega) rfl rfl

/-- C4: the transform parser: the empty string parses to the identity
matrix, equal to the parse of the identity's 12-number encoding; a string
with fewer tokens leaves every unfilled cell at its identity value; a
non-numeric token leaves only that token's cell at its identity value
while every other token is still parsed into its cell; and twelve numeric
tokens are laid out as the spec's row-major encoding with implicit last
column `0,0,0,1` (stored transposed, `mathutils` being column-vector). -/
theorem parse_transformation_layout (s : String) (i j : Fin 4) :
    parse_transformation "" = 1
    ∧ parse_transformation "1 0 0 0 1 0 0 0 1 0 0 0" = 1
    ∧ ((i : ℕ) = 3 ∨ (splitSpaces s).length ≤ 3 * (j : ℕ) + (i : ℕ) →
        parse_transformation s i j = (1 : Mat4) i j)
    ∧ (s ≠ "" → (i : ℕ) < 3 → 3 * (j : ℕ) + (i : ℕ) < (splitSpaces s).length →
        parse_transformation s i j =
          (pyFloat? ((splitSpaces s).getD (3 * (j : ℕ) + (i : ℕ)) "")).getD ((1 : Mat4) i j))
    ∧ (∀ vs : List ℚ, s ≠ "" → (splitSpaces s).length = 12 → vs.length = 12 →
        (∀ k, k < 12 → pyFloat? ((splitSpaces s).getD k "") = some (vs.getD k 0)) →
        parse_transformation s = (specTransformMatrix vs).transpose) := by
  refine ⟨by decide, by decide, ?_, ?_, ?_⟩
  · intro h
    by_cases hs : s = ""
    · subst hs
      simp [parse_transformation]
    · rw [parse_transformation_cell s hs i j, if_neg]
      rintro ⟨h1, h2⟩
      rcases h with h | h <;> omega
  · intro hs hi hk
    rw [parse_transformation_cell s hs i j, if_pos ⟨hi, hk⟩]
  · intro vs hs hlen hvlen hall
    ext a b
    rw [Matrix.transpose_apply]
    have ha4 := a.isLt
    have hb4 := b.isLt
    by_cases hai : (a : ℕ) < 3
    · have hk : 3 * (b : ℕ) + (a : ℕ) < 12 := by omega
      rw [parse_transformation_cell s hs a b, if_pos ⟨hai, by omega⟩, hall _ hk,
        Option.getD_some]
      unfold specTransformMatrix
      simp only [Matrix.of_apply]
      rw [if_neg (by omega)]
    · have hai3 : (a : ℕ) = 3 := by omega
      rw [parse_transformation_cell s hs a b, if_neg (by rintro ⟨h1, _⟩; omega),
        Matrix.one_apply]
      unfold specTransformMatrix
      simp only [Matrix.of_apply]
      rw [if_pos hai3]
      exact if_congr (by rw [Fin.ext_iff]; omega) rfl rfl

/-- Witness for C4: the parser applied to a concrete 12-number string,
matched against the spec's row-major layout (transposed). -/
theorem parse_transformation_layout_witness :
    parse_transformation "2 0 0 0 2 0 0 0 2 10 20 30" =
      (specTransformMatrix [2, 0, 0, 0, 2, 0, 0, 0, 2, 10, 20, 30]).transpose :=
  (parse_transformation_layout "2 0 0 0 2 0 0 0 2 10 20 30" 0 0).2.2.2.2
    [2, 0, 0, 0, 2, 0, 0, 0, 2, 10, 20, 30] (by decide) (by decide) (by decide)
    (by decide)

/-! ## Build resolver lemmas -/

theorem build_object_transformation (ros : ResourceStore) (fuel : ℕ) (ro : ResourceObject)
    (t : Mat4) (md : Metadata) (stack : List String) :
    (build_object ros fuel ro t md stack).transformation = t := by
  cases fuel <;> rfl

theorem build_items_singleton (ros : ResourceStore) (item : BuildItemNode) (u : ℚ)
    (fuel : ℕ) (oid : String) (ro : ResourceObject) (hoid : item.objectid = some oid)
    (hlk : resourceLookup ros oid = some ro) :
    build_items ros [item] u fuel =
      [build_object ros fuel ro (buildItemTransform u item) (buildItemMetadata item) [oid]] := by
  simp only [build_items, List.filterMap_cons, List.filterMap_nil, hoid, hlk]

theorem build_object_singleton_child (ros : ResourceStore) (fuel : ℕ)
    (ro ro2 : ResourceObject) (t T : Mat4) (md : Metadata) (stack : List String)
    (id2 : String) (hcomp : ro.components = [⟨id2, T⟩]) (hstack : id2 ∉ stack)
    (hlk : resourceLookup ros id2 = some ro2) :
    (build_object ros (fuel + 1) ro t md stack).children =
      [build_object ros fuel ro2 (t * T) md (stack ++ [id2])] := by
  simp only [build_object, PlacedTree.children, hcomp, List.filterMap_cons,
    List.filterMap_nil]
  rw [if_neg hstack, hlk]

/-- C1: build resolution composes transforms top-down — every resolved
build item's root placement transform is `Scale(unit_scale)` composed with
the parsed item transform (identity when the attribute is absent, since
`parse_transformation "" = 1`); every child created during recursive
instantiation carries the parent's accumulated transform composed with the
component's own transform; and for nested components A→B→C with
transforms `Ta, Tb, Tc`, C's resolved placement is
`Scale(u) ∘ Ta ∘ Tb ∘ Tc` (in either association, by associativity). -/
theorem build_transform_composition :
    (∀ (ros : ResourceStore) (items : List BuildItemNode) (u : ℚ) (fuel : ℕ),
      ∀ tree ∈ build_items ros items u fuel, ∃ item ∈ items, ∃ oid ro,
        item.objectid = some oid ∧ resourceLookup ros oid = some ro ∧
        tree.transformation = scaleMatrix u * parse_transformation (item.transform.getD ""))
    ∧ (∀ (ros : ResourceStore) (fuel : ℕ) (ro : ResourceObject) (t : Mat4) (md : Metadata)
        (stack : List String),
        ∀ child ∈ (build_object ros (fuel + 1) ro t md stack).children,
          ∃ comp ∈ ro.components, child.transformation = t * comp.transformation)
    ∧ (∀ (u : ℚ) (ta : String) (Tb Tc : Mat4) (idA idB idC : String)
        (roA roB roC : ResourceObject) (item : BuildItemNode),
        idA ≠ idB → idA ≠ idC → idB ≠ idC →
        roA.components = [⟨idB, Tb⟩] → roB.components = [⟨idC, Tc⟩] →
        item.objectid = some idA → item.transform = some ta →
        ((((build_items [(idA, roA), (idB, roB), (idC, roC)] [item] u 3).getD 0
              dummyTree).children.getD 0 dummyTree).children.getD 0
            dummyTree).transformation
          = scaleMatrix u * parse_transformation ta * Tb * Tc
        ∧ ((((build_items [(idA, roA), (idB, roB), (idC, roC)] [item] u 3).getD 0
              dummyTree).children.getD 0 dummyTree).children.getD 0
            dummyTree).transformation
          = scaleMatrix u * (parse_transformation ta * (Tb * Tc))) := by
  refine ⟨?_, ?_, ?_⟩
  · intro ros items u fuel tree htree
    rcases List.mem_filterMap.mp htree with ⟨item, hitem, hmap⟩
    rcases hoid : item.objectid with _ | oid
    · rw [hoid] at hmap; cases hmap
    · rw [hoid] at hmap
      dsimp only at hmap
      rcases hlk : resourceLookup ros oid with _ | ro
      · rw [hlk] at hmap; cases hmap
      · rw [hlk] at hmap
        dsimp only at hmap
        injection hmap with hmap
        refine ⟨item, hitem, oid, ro, hoid, hlk, ?_⟩
        rw [← hmap, build_object_transformation]
        rfl
  · intro ros fuel ro t md stack child hchild
    simp only [build_object, PlacedTree.children] at hchild
    rcases List.mem_filterMap.mp hchild with ⟨comp, hcm, hmap⟩
    by_cases hstack : comp.resource_object ∈ stack
    · rw [if_pos hstack] at hmap; cases hmap
    · rw [if_neg hstack] at hmap
      rcases hlk : resourceLookup ros comp.resource_object with _ | co
      · rw [hlk] at hmap; cases hmap
      · rw [hlk] at hmap
        injection hmap with hmap
        refine ⟨comp, hcm, ?_⟩
        rw [← hmap, build_object_transformation]
  · intro u ta Tb Tc idA idB idC roA roB roC item hAB hAC hBC hA hB hoid hta
    have hBA : idB ≠ idA := Ne.symm hAB
    have hCA : idC ≠ idA := Ne.symm hAC
    have hCB : idC ≠ idB := Ne.symm hBC
    have hlkA : resourceLookup [(idA, roA), (idB, roB), (idC, roC)] idA = some roA := by
      simp [resourceLookup, alistFind?]
    have hlkB : resourceLookup [(idA, roA), (idB, roB), (idC, roC)] idB = some roB := by
      simp [resourceLookup, alistFind?, hAB]
    have hlkC : resourceLookup [(idA, roA), (idB, roB), (idC, roC)] idC = some roC := by
      simp [resourceLookup, alistFind?, hAC, hBC]
    have h0 : build_items [(idA, roA), (idB, roB), (idC, roC)] [item] u 3 =
        [build_object [(idA, roA), (idB, roB), (idC, roC)] 3 roA
          (buildItemTransform u item) (buildItemMetadata item) [idA]] :=
      build_items_singleton _ item u 3 idA roA hoid hlkA
    have h1 : (build_object [(idA, roA), (idB, roB), (idC, roC)] 3 roA
        (buildItemTransform u item) (buildItemMetadata item) [idA]).children =
        [build_object [(idA, roA), (idB, roB), (idC, roC)] 2 roB
          (buildItemTransform u item * Tb) (buildItemMetadata item) [idA, idB]] :=
      build_object_singleton_child _ 2 roA roB _ Tb _ [idA] idB hA
        (by simp [hBA]) hlkB
    have h2 : (build_object [(idA, roA), (idB, roB), (idC, roC)] 2 roB
        (buildItemTransform u item * Tb) (buildItemMetadata item) [idA, idB]).children =
        [build_object [(idA, roA), (idB, roB), (idC, roC)] 1 roC
          (buildItemTransform u item * Tb * Tc) (buildItemMetadata item) [idA, idB, idC]] :=
      build_object_singleton_child _ 1 roB roC _ Tc _ [idA, idB] idC hB
        (by simp [hCA, hCB]) hlkC
    have htrans : buildItemTransform u item = scaleMatrix u * parse_transformation ta := by
      unfold buildItemTransform
      rw [hta]
      rfl
    have hmain : ((((build_items [(idA, roA), (idB, roB), (idC, roC)] [item] u 3).getD 0
          dummyTree).children.getD 0 dummyTree).children.getD 0 dummyTree).transformation
        = scaleMatrix u * parse_transformation ta * Tb * Tc := by
      rw [h0]
      simp only [List.getD_cons_zero]
      rw [h1]
      simp only [List.getD_cons_zero]
      rw [h2]
      simp only [List.getD_cons_zero]
      rw [build_object_transformation, htrans]
    exact ⟨hmain, by rw [hmain, mul_assoc, mul_assoc]⟩

/-- Witness for C1: the A→B→C composition at a concrete graph. -/
theorem build_transform_composition_witness :
    ((((build_items [("A", ⟨[], [], [], [⟨"B", 1⟩], []⟩),
          ("B", ⟨[], [], [], [⟨"C", 1⟩], []⟩), ("C", ⟨[], [], [], [], []⟩)]
          [⟨some "A", some "", none, []⟩] 1 3).getD 0 dummyTree).children.getD 0
        dummyTree).children.getD 0 dummyTree).transformation
      = scaleMatrix 1 * parse_transformation "" * 1 * 1 :=
  ((build_transform_composition.2.2 1 "" 1 1 "A" "B" "C"
    ⟨[], [], [], [⟨"B", 1⟩], []⟩ ⟨[], [], [], [⟨"C", 1⟩], []⟩ ⟨[], [], [], [], []⟩
    ⟨some "A", some "", none, []⟩ (by decide) (by decide) (by decide) rfl rfl rfl rfl).1)

theorem resourceLookup_mem {ros : ResourceStore} {id2 : String} {ro : ResourceObject}
    (h : resourceLookup ros id2 = some ro) : id2 ∈ ros.map Prod.fst := by
  induction ros with
  | nil => cases h
  | cons p m ih =>
    unfold resourceLookup alistFind? at h
    by_cases hp : p.1 = id2
    · exact List.mem_cons.mpr (Or.inl hp.symm)
    · rw [if_neg hp] at h
      exact List.mem_cons_of_mem _ (ih h)

theorem buildBound_pos (ros : ResourceStore) (stack : List String) :
    1 ≤ buildBound ros stack := by
  unfold buildBound
  omega

theorem buildBound_push (ros : ResourceStore) (stack : List String) (id2 : String)
    (hmem : id2 ∈ ros.map Prod.fst) (hstack : id2 ∉ stack) :
    buildBound ros (stack ++ [id2]) + 1 = buildBound ros stack := by
  unfold buildBound
  have h2 : (ros.map Prod.fst).toFinset \ (stack ++ [id2]).toFinset =
      ((ros.map Prod.fst).toFinset \ stack.toFinset).erase id2 := by
    ext x
    simp only [Finset.mem_sdiff, Finset.mem_erase, List.mem_toFinset, List.mem_append,
      List.mem_singleton]
    constructor
    · rintro ⟨hx, hnx⟩
      exact ⟨fun hxe => hnx (Or.inr hxe), hx, fun hxs => hnx (Or.inl hxs)⟩
    · rintro ⟨hne, hx, hns⟩
      refine ⟨hx, ?_⟩
      rintro (hxs | hxe)
      · exact hns hxs
      · exact hne hxe
  rw [h2, Finset.card_erase_of_mem]
  · have hpos : id2 ∈ (ros.map Prod.fst).toFinset \ stack.toFinset := by
      simp only [Finset.mem_sdiff, List.mem_toFinset]
      exact ⟨hmem, hstack⟩
    have hcard := Finset.card_pos.mpr ⟨id2, hpos⟩
    omega
  · simp only [Finset.mem_sdiff, List.mem_toFinset]
    exact ⟨hmem, hstack⟩

theorem build_object_stable (c : ℕ) :
    ∀ (ros : ResourceStore) (stack : List String), buildBound ros stack = c + 1 →
    ∀ (ro : ResourceObject) (t : Mat4) (md : Metadata) (f1 f2 : ℕ),
      c + 1 ≤ f1 → c + 1 ≤ f2 →
      build_object ros f1 ro t md stack = build_object ros f2 ro t md stack := by
  induction c using Nat.strong_induction_on with
  | _ c ih =>
    intro ros stack hbound ro t md f1 f2 h1 h2
    rcases f1 with _ | f1
    · omega
    rcases f2 with _ | f2
    · omega
    simp only [build_object]
    congr 1
    apply List.filterMap_congr
    intro comp hcomp
    by_cases hstack : comp.resource_object ∈ stack
    · rw [if_pos hstack, if_pos hstack]
    · rw [if_neg hstack, if_neg hstack]
      rcases hlk : resourceLookup ros comp.resource_object with _ | child
      · rfl
      · dsimp only
        have hmemk := resourceLookup_mem hlk
        have hpush := buildBound_push ros stack comp.resource_object hmemk hstack
        have hge := buildBound_pos ros (stack ++ [comp.resource_object])
        congr 1
        exact ih (buildBound ros (stack ++ [comp.resource_object]) - 1) (by omega)
          ros (stack ++ [comp.resource_object]) (by omega) child
          (t * comp.transformation) md f1 f2 (by omega) (by omega)

theorem filterMap_filter_of_none {α β : Type} (f : α → Option β) (p : α → Prop)
    [DecidablePred p] (l : List α) (h : ∀ x ∈ l, ¬p x → f x = none) :
    l.filterMap f = (l.filter fun x => p x).filterMap f := by
  induction l with
  | nil => rfl
  | cons a l ih =>
    have ih' := ih fun x hx => h x (List.mem_cons_of_mem _ hx)
    by_cases hp : p a
    · rw [List.filter_cons, if_pos (by simpa using hp), List.filterMap_cons,
        List.filterMap_cons, ih']
    · rw [List.filter_cons, if_neg (by simpa using hp), List.filterMap_cons,
        h a (List.mem_cons_self _ _) hp, ih']

/-- C2: the recursive build-resolution walk terminates on every finite
resource graph, cyclic ones included: once the fuel reaches the bound (one
more than the number of distinct resource IDs not yet on the ancestor-ID
stack) the result no longer depends on the fuel, because a component whose
target resource ID is already on the stack is skipped — removing exactly
the in-stack components from a resource changes nothing about the children
the walk produces. -/
theorem build_resolution_terminates (ros : ResourceStore) (ro : ResourceObject)
    (t : Mat4) (md : Metadata) (stack : List String) (fuel : ℕ) :
    (buildBound ros stack ≤ fuel →
      build_object ros fuel ro t md stack =
        build_object ros (buildBound ros stack) ro t md stack)
    ∧ (build_object ros fuel ro t md stack).children =
        (build_object ros fuel
          { ro with components := ro.components.filter fun c => c.resource_object ∉ stack }
          t md stack).children := by
  constructor
  · intro h
    have hge := buildBound_pos ros stack
    exact build_object_stable (buildBound ros stack - 1) ros stack (by omega) ro t md
      fuel (buildBound ros stack) (by omega) (by omega)
  · rcases fuel with _ | fuel
    · rfl
    · simp only [build_object, PlacedTree.children]
      exact filterMap_filter_of_none _ (fun c : Component => c.resource_object ∉ stack) _
        (fun comp _ hmem => by
          rw [if_pos (by simpa using hmem)])

/-- Witness for C2: a resource `X` whose single component references `X`
itself — with `X` on the ancestor stack the walk is already stable at the
bound (here 1), for any larger fuel. -/
theorem build_resolution_terminates_witness :
    build_object [("X", ⟨[], [], [], [⟨"X", 1⟩], []⟩)] 5 ⟨[], [], [], [⟨"X", 1⟩], []⟩
        1 [] ["X"] =
      build_object [("X", ⟨[], [], [], [⟨"X", 1⟩], []⟩)]
        (buildBound [("X", ⟨[], [], [], [⟨"X", 1⟩], []⟩)] ["X"])
        ⟨[], [], [], [⟨"X", 1⟩], []⟩ 1 [] ["X"] :=
  (build_resolution_terminates [("X", ⟨[], [], [], [⟨"X", 1⟩], []⟩)]
    ⟨[], [], [], [⟨"X", 1⟩], []⟩ 1 [] ["X"] 5).1 (by decide)

/-! ## Resource-graph triangle lemmas -/

theorem readTriangle_nonneg {mats : MaterialStore} {dm : Option ResourceMaterial}
    {mp : Option String} {node : TriangleNode} {tr : ℤ × ℤ × ℤ}
    {m : Option ResourceMaterial} (h : readTriangle mats dm mp node = some (tr, m)) :
    0 ≤ tr.1 ∧ 0 ≤ tr.2.1 ∧ 0 ≤ tr.2.2 := by
  unfold readTriangle at h
  split at h
  · split at h
    · split at h
      · cases h
      case _ hneg =>
        injection h with h
        rw [Prod.mk.injEq] at h
        obtain ⟨h1, h2⟩ := h
        subst h1
        push_neg at hneg
        exact ⟨hneg.1, hneg.2.1, hneg.2.2⟩
    · cases h
  · cases h

theorem read_triangles_nonneg {mats : MaterialStore} {nodes : List TriangleNode}
    {dm : Option ResourceMaterial} {mp : Option String} :
    ∀ tr ∈ (read_triangles mats nodes dm mp).1, 0 ≤ tr.1 ∧ 0 ≤ tr.2.1 ∧ 0 ≤ tr.2.2 := by
  intro tr htr
  unfold read_triangles at htr
  dsimp only at htr
  rcases List.mem_map.mp htr with ⟨row, hrow, hfst⟩
  rcases List.mem_filterMap.mp hrow with ⟨node, _, hread⟩
  rcases row with ⟨tr', m⟩
  cases hfst
  exact readTriangle_nonneg hread

theorem readObject_nonneg {mats : MaterialStore} {node : ObjectNode} {oid : String}
    {ro : ResourceObject} (h : readObject mats node = some (oid, ro)) :
    ∀ tr ∈ ro.triangles, 0 ≤ tr.1 ∧ 0 ≤ tr.2.1 ∧ 0 ≤ tr.2.2 := by
  unfold readObject at h
  rcases hid : node.id with _ | objectid
  · rw [hid] at h; cases h
  · rw [hid] at h
    dsimp only at h
    injection h with h
    injection h with h1 h2
    rw [← h2]
    exact read_triangles_nonneg

theorem mem_dictSet {α : Type} {m : List (String × α)} {k : String} {v : α}
    {p : String × α} (h : p ∈ dictSet m k v) : p ∈ m ∨ p = (k, v) := by
  unfold dictSet at h
  by_cases hs : (alistFind? m k).isSome
  · rw [if_pos hs] at h
    rcases List.mem_map.mp h with ⟨q, hq, hmap⟩
    by_cases hqk : q.1 = k
    · right; rw [← hmap, if_pos hqk]
    · left; rw [← hmap, if_neg hqk]; exact hq
  · rw [if_neg hs] at h
    rcases List.mem_append.mp h with h | h
    · left; exact h
    · right; simpa using h

/-- C7 (amended): every triangle stored by the resource-graph builder has
three non-negative vertex indices — triangles with a missing, unparsable
or negative vertex reference are dropped.  (No upper-bound check against
the vertex list is performed; see the counterexample.) -/
theorem read_objects_triangle_indices (mats : MaterialStore) (nodes : List ObjectNode) :
    ∀ p ∈ read_objects mats nodes, ∀ tr ∈ p.2.triangles,
      0 ≤ tr.1 ∧ 0 ≤ tr.2.1 ∧ 0 ≤ tr.2.2 := by
  unfold read_objects
  suffices hgen : ∀ (acc : List (String × ResourceObject)),
      (∀ p ∈ acc, ∀ tr ∈ p.2.triangles, 0 ≤ tr.1 ∧ 0 ≤ tr.2.1 ∧ 0 ≤ tr.2.2) →
      ∀ p ∈ nodes.foldl
        (fun ros node =>
          match readObject mats node with
          | none => ros
          | some (objectid, ro) => dictSet ros objectid ro) acc,
        ∀ tr ∈ p.2.triangles, 0 ≤ tr.1 ∧ 0 ≤ tr.2.1 ∧ 0 ≤ tr.2.2 by
    exact hgen [] (by simp)
  induction nodes with
  | nil => intro acc hacc; simpa using hacc
  | cons node nodes ih =>
    intro acc hacc
    simp only [List.foldl_cons]
    apply ih
    rcases hro : readObject mats node with _ | q
    · exact hacc
    · rcases q with ⟨oid, ro⟩
      intro p hp
      rcases mem_dictSet hp with hin | rfl
      · exact hacc p hin
      · exact readObject_nonneg hro

/-- Counterexample for C7 as stated: an object with a single vertex and a
triangle referencing vertex 5 — the triangle is stored even though 5 is
not a valid index into the one-element vertex list. -/
theorem read_objects_triangle_counterexample :
    (read_objects [] [⟨some "1", none, none, none, none,
        [⟨some "0", some "0", some "0"⟩],
        [⟨some "5", some "0", some "0", none, none⟩], [], []⟩]).map
      (fun p => (p.1, p.2.triangles, p.2.vertices.length)) = [("1", [((5 : ℤ), (0 : ℤ), (0 : ℤ))], 1)]
    ∧ ¬((5 : ℤ) < 1) := by
  exact ⟨by decide, by decide⟩

/-- Witness for C7 (amended): the stored out-of-range triangle still has
non-negative indices. -/
theorem read_objects_triangle_indices_witness :
    (0 : ℤ) ≤ (5 : ℤ) ∧ (0 : ℤ) ≤ (0 : ℤ) ∧ (0 : ℤ) ≤ (0 : ℤ) :=
  read_objects_triangle_indices [] [⟨some "1", none, none, none, none,
      [⟨some "0", some "0", some "0"⟩], [⟨some "5", some "0", some "0", none, none⟩], [], []⟩]
    ("1", ⟨[(0, 0, 0)], [(5, 0, 0)], [none], [],
      [("3mf:object_type", some ⟨"3mf:object_type", true, "xs:string", some "model"⟩)]⟩)
    (by decide) (5, 0, 0) (by decide)
